import Mathlib

/-!
Shallow embedding of the GitConnectX C++ graph-analytics engine
(`src/cpp_algorithms/`) and proofs about it.

Conventions of the embedding:
* C++ `int` vertex ids are embedded as `Nat`: every id stored by the code is
  non-negative (negative ids are rejected before any mutation), and no claim
  depends on the behaviour of a negative id beyond that rejection.
* C++ `double` weights and scores are embedded as `ℚ`; the claims under
  study are structural (which terms are added, which branches run), not
  about rounding.
* `std::unordered_map<int, vector<...>>` used only through `find`/`operator[]`
  is embedded as an association list; the C++ code never iterates a map in a
  way whose order is observable except through order-insensitive sums.
* A C++ function that throws is embedded as a function into `Except`.
-/

namespace GitConnectX

/-- Errors thrown by the C++ code (`std::invalid_argument`,
`std::runtime_error` for negative weights during Dijkstra relaxation, and an
explicit marker for an out-of-bounds vector access, which in C++ is
undefined behaviour). -/
inductive Err where
  | invalidArgument
  | negativeWeight
  | outOfBounds
  | fuelExhausted
  deriving DecidableEq, Repr

/-- The `Graph` class of `graph.h`: adjacency map, vertex set, the private
`numVertices` counter and the directedness flag. -/
structure Graph where
  adjList : List (Nat × List (Nat × ℚ))
  vertices : List Nat
  numVertices : Nat
  directed : Bool
  deriving Repr

namespace Graph

/-- `Graph(bool directed)` constructor. -/
def mkGraph (directed : Bool) : Graph :=
  { adjList := [], vertices := [], numVertices := 0, directed := directed }

/-- `addVertex`: insert into the vertex set and bump the private counter to
`max(numVertices, vertex + 1)`.  (The `vertex < 0` guard is vacuous for
`Nat` ids.) -/
def addVertex (g : Graph) (v : Nat) : Graph :=
  { g with
    vertices := if v ∈ g.vertices then g.vertices else g.vertices ++ [v]
    numVertices := max g.numVertices (v + 1) }

/-- Upsert `(to, weight)` into one adjacency bucket, preserving insertion
order; a new key is appended (map iteration order is never observed). -/
def adjUpsert (al : List (Nat × List (Nat × ℚ))) (from_ to_ : Nat) (w : ℚ) :
    List (Nat × List (Nat × ℚ)) :=
  match al with
  | [] => [(from_, [(to_, w)])]
  | (k, nbrs) :: rest =>
    if k = from_ then
      (k, if nbrs.any (fun p => p.1 = to_) then
            nbrs.map (fun p => if p.1 = to_ then (p.1, w) else p)
          else nbrs ++ [(to_, w)]) :: rest
    else (k, nbrs) :: adjUpsert rest from_ to_ w

/-- `addEdge`: reject a negative weight before any mutation, otherwise add
both endpoints as vertices and upsert the edge (both directions when the
graph is undirected). -/
def addEdge (g : Graph) (from_ to_ : Nat) (w : ℚ) : Graph :=
  if w < 0 then g
  else
    let g1 := (g.addVertex from_).addVertex to_
    let al1 := adjUpsert g1.adjList from_ to_ w
    let al2 := if g1.directed then al1 else adjUpsert al1 to_ from_ w
    { g1 with adjList := al2 }

/-- `getNeighbors`: adjacency lookup, empty when the key is absent. -/
def getNeighbors (g : Graph) (v : Nat) : List (Nat × ℚ) :=
  match g.adjList.find? (fun p => p.1 = v) with
  | some p => p.2
  | none => []

/-- `hasVertex`. -/
def hasVertex (g : Graph) (v : Nat) : Bool :=
  v ∈ g.vertices

/-- `getNumVertices`: the C++ method returns `vertices.size()`, not the
private `numVertices` field. -/
def getNumVertices (g : Graph) : Nat :=
  g.vertices.length

end Graph

/-- Graphs reachable through the public `addVertex`/`addEdge` interface
from a fresh `Graph(directed)`. -/
inductive Built : Graph → Prop where
  | base (d : Bool) : Built (Graph.mkGraph d)
  | vertex {g : Graph} (v : Nat) : Built g → Built (g.addVertex v)
  | edge {g : Graph} (u v : Nat) (w : ℚ) : Built g → Built (g.addEdge u v w)

/-- `max id seen + 1` over the recorded vertex set (0 when empty). -/
def maxIdSucc (l : List Nat) : Nat :=
  l.foldr (fun v m => max (v + 1) m) 0

/-- Ids are exactly `{0, …, getNumVertices − 1}`. -/
def Contig (g : Graph) : Prop :=
  ∀ v : Nat, v ∈ g.vertices ↔ v < g.getNumVertices

section C1

lemma maxIdSucc_le {l : List Nat} {n : Nat} (h : ∀ v ∈ l, v < n) :
    maxIdSucc l ≤ n := by
  induction l with
  | nil => exact Nat.zero_le n
  | cons a t ih =>
    simp only [maxIdSucc, List.foldr_cons] at *
    exact max_le (h a (by simp)) (ih fun v hv => h v (by simp [hv]))

lemma le_maxIdSucc {l : List Nat} {v : Nat} (h : v ∈ l) :
    v + 1 ≤ maxIdSucc l := by
  induction l with
  | nil => cases h
  | cons a t ih =>
    rcases List.mem_cons.mp h with rfl | hv
    · exact le_max_left _ _
    · exact le_trans (ih hv) (le_max_right _ _)

lemma maxIdSucc_append_new {l : List Nat} {v : Nat} :
    maxIdSucc (l ++ [v]) = max (v + 1) (maxIdSucc l) := by
  induction l with
  | nil => simp [maxIdSucc]
  | cons a t ih =>
    simp only [maxIdSucc, List.cons_append, List.foldr_cons] at *
    rw [ih]
    ac_rfl

lemma nodup_addVertex {g : Graph} (v : Nat) (h : g.vertices.Nodup) :
    (g.addVertex v).vertices.Nodup := by
  simp only [Graph.addVertex]
  split
  · exact h
  · next hv =>
    rw [List.nodup_append]
    refine ⟨h, List.nodup_singleton v, ?_⟩
    intro a ha hb
    simp only [List.mem_singleton] at hb
    subst hb
    exact hv ha

lemma built_vertices_nodup {g : Graph} (h : Built g) : g.vertices.Nodup := by
  induction h with
  | base d => exact List.nodup_nil
  | vertex v _ ih => exact nodup_addVertex v ih
  | edge u v w _ ih =>
    simp only [Graph.addEdge]
    split
    · exact ih
    · exact nodup_addVertex v (nodup_addVertex u ih)

lemma addVertex_counter {g : Graph} (v : Nat)
    (h : g.numVertices = maxIdSucc g.vertices) :
    (g.addVertex v).numVertices = maxIdSucc (g.addVertex v).vertices := by
  simp only [Graph.addVertex]
  split
  · next hv => simpa [h] using (max_eq_right (le_maxIdSucc hv)).symm
  · rw [maxIdSucc_append_new, h, max_comm]

lemma built_counter {g : Graph} (h : Built g) :
    g.numVertices = maxIdSucc g.vertices := by
  induction h with
  | base d => rfl
  | vertex v _ ih => exact addVertex_counter v ih
  | edge u v w _ ih =>
    simp only [Graph.addEdge]
    split
    · exact ih
    · exact addVertex_counter v (addVertex_counter u ih)

end C1

/-- **C1, counterexample.**  After the single call `addVertex(5)` on a fresh
graph, `getNumVertices()` returns 1 (the size of the vertex set), not
`max id seen + 1 = 6`. -/
theorem c1_counterexample :
    ((Graph.mkGraph true).addVertex 5).getNumVertices ≠
      maxIdSucc ((Graph.mkGraph true).addVertex 5).vertices := by
  decide

/-- **C1 (amended).**  For every graph built through `addVertex`/`addEdge`:
`getNumVertices()` returns the number of distinct vertex ids seen (the
vertex-set size), while the *private field* `numVertices` equals the maximum
id seen plus 1; the two agree exactly when the ids are contiguous
`{0, …, n−1}`. -/
theorem c1_numVertices (g : Graph) (h : Built g) :
    g.getNumVertices = g.vertices.length ∧
    g.vertices.Nodup ∧
    g.numVertices = maxIdSucc g.vertices ∧
    (Contig g → g.getNumVertices = g.numVertices) := by
  refine ⟨rfl, built_vertices_nodup h, built_counter h, ?_⟩
  intro hc
  rw [built_counter h]
  rcases hn : g.getNumVertices with _ | m
  · have : g.vertices = [] := by
      cases hv : g.vertices with
      | nil => rfl
      | cons a t =>
        exfalso
        have := (hc a).mp (by simp [hv])
        omega
    simp [this, maxIdSucc]
  · have hub : maxIdSucc g.vertices ≤ m + 1 :=
      maxIdSucc_le (fun v hv => hn ▸ (hc v).mp hv)
    have hlb : m + 1 ≤ maxIdSucc g.vertices :=
      le_maxIdSucc ((hc m).mpr (by omega))
    omega

/-- **C1 witness**: the amended statement instantiated on the graph built by
`addEdge(0, 5, 1)`. -/
theorem c1_numVertices_witness :
    Built ((Graph.mkGraph true).addEdge 0 5 1) ∧
    ((Graph.mkGraph true).addEdge 0 5 1).getNumVertices =
      ((Graph.mkGraph true).addEdge 0 5 1).vertices.length := by
  have hb : Built ((Graph.mkGraph true).addEdge 0 5 1) :=
    Built.edge 0 5 1 (Built.base true)
  exact ⟨hb, (c1_numVertices _ hb).1⟩

/-! ### PageRank (`src/cpp_algorithms/pagerank.cpp`) -/

/-- The `PageRank` class state: node count, per-node outgoing and incoming
link vectors, the score vector, and the fixed parameters. -/
structure PRState where
  numNodes : Nat
  outgoing : List (List Nat)
  incoming : List (List Nat)
  scores : List ℚ
  damping : ℚ
  maxIterations : Nat
  threshold : ℚ
  deriving Repr

namespace PRState

/-- The `PageRank(nodes, edges, damping, iterations, threshold)` constructor
after its argument validation has passed. -/
def init (nodes : Nat) (damping : ℚ) (iterations : Nat) (threshold : ℚ) :
    PRState :=
  { numNodes := nodes
    outgoing := List.replicate nodes []
    incoming := List.replicate nodes []
    scores := List.replicate nodes (1 / (nodes : ℚ))
    damping := damping
    maxIterations := iterations
    threshold := threshold }

/-- `add_edge(source, target)`: out-of-range ids throw before any mutation;
a duplicate edge is ignored; otherwise `target` is appended to
`outgoing[source]` and `source` to `incoming[target]` together. -/
def addEdge (st : PRState) (source target : Nat) : PRState :=
  if source < st.numNodes ∧ target < st.numNodes then
    if target ∈ st.outgoing.getD source [] then st
    else
      { st with
        outgoing := st.outgoing.set source (st.outgoing.getD source [] ++ [target])
        incoming := st.incoming.set target (st.incoming.getD target [] ++ [source]) }
  else st

/-- One term of the incoming-link accumulation in `compute()`: the
`out_degree > 0` branch divides by the out-degree, the `else` branch (the
"dangling" handler) divides by `num_nodes`. -/
def contribution (st : PRState) (incoming : Nat) : ℚ :=
  let outDegree := (st.outgoing.getD incoming []).length
  if 0 < outDegree then
    st.damping * st.scores.getD incoming 0 / (outDegree : ℚ)
  else
    st.damping * st.scores.getD incoming 0 / (st.numNodes : ℚ)

/-- `new_scores[node]` after one iteration body of `compute()`. -/
def newScoreAt (st : PRState) (node : Nat) : ℚ :=
  (1 - st.damping) / (st.numNodes : ℚ) +
    ((st.incoming.getD node []).map (contribution st)).sum

/-- The full score vector produced by one iteration of `compute()`. -/
def iterScores (st : PRState) : List ℚ :=
  (List.range st.numNodes).map (newScoreAt st)

/-- The iteration loop of `compute()`: run up to `maxIterations` passes,
stopping early when the L1 difference falls below the threshold. -/
def computeLoop : Nat → PRState → PRState
  | 0, st => st
  | fuel + 1, st =>
    let ns := iterScores st
    let diff := (List.range st.numNodes).foldl
      (fun acc node => acc + |ns.getD node 0 - st.scores.getD node 0|) 0
    let st' := { st with scores := ns }
    if diff < st.threshold then st' else computeLoop fuel st'

/-- `compute()`: iterate, then normalize the scores by their sum. -/
def compute (st : PRState) : PRState :=
  let st' := computeLoop st.maxIterations st
  let s := st'.scores.sum
  { st' with scores := st'.scores.map (· / s) }

end PRState

/-- PageRank states reachable through the public constructor (with valid
parameters) followed by `add_edge` calls. -/
inductive PRBuilt : PRState → Prop where
  | init (nodes : Nat) (damping : ℚ) (iterations : Nat) (threshold : ℚ)
      (hn : 0 < nodes) (hd0 : 0 < damping) (hd1 : damping < 1)
      (hi : 0 < iterations) (ht : 0 < threshold) :
      PRBuilt (PRState.init nodes damping iterations threshold)
  | addEdge {st : PRState} (source target : Nat) :
      PRBuilt st → PRBuilt (st.addEdge source target)

section C2

lemma getD_set_self {α : Type} (l : List α) (i : Nat) (x d : α)
    (h : i < l.length) : (l.set i x).getD i d = x := by
  induction l generalizing i with
  | nil => simp at h
  | cons a t ih =>
    cases i with
    | zero => rfl
    | succ j => exact ih j (by simpa using h)

lemma getD_set_ne {α : Type} (l : List α) (i j : Nat) (x d : α)
    (h : i ≠ j) : (l.set i x).getD j d = l.getD j d := by
  induction l generalizing i j with
  | nil => rfl
  | cons a t ih =>
    cases i with
    | zero => cases j with
      | zero => exact absurd rfl h
      | succ k => rfl
    | succ m => cases j with
      | zero => rfl
      | succ k => exact ih m k (by omega)

lemma getD_replicate {α : Type} (n i : Nat) (a d : α) :
    (List.replicate n a).getD i d = if i < n then a else d := by
  induction n generalizing i with
  | zero => simp
  | succ m ih =>
    cases i with
    | zero => simp [List.replicate]
    | succ j => simpa [List.replicate, Nat.succ_lt_succ_iff] using ih j

/-- The link-structure invariant of `PageRank`: the vectors have length
`numNodes`, and an entry of an incoming list is always recorded in the
matching outgoing list. -/
def PRInv (st : PRState) : Prop :=
  st.outgoing.length = st.numNodes ∧
  st.incoming.length = st.numNodes ∧
  ∀ v u : Nat, u ∈ st.incoming.getD v [] → v ∈ st.outgoing.getD u []

lemma prInv_init (nodes : Nat) (damping : ℚ) (iterations : Nat)
    (threshold : ℚ) :
    PRInv (PRState.init nodes damping iterations threshold) := by
  refine ⟨by simp [PRState.init], by simp [PRState.init], ?_⟩
  intro v u hu
  rw [show (PRState.init nodes damping iterations threshold).incoming =
      List.replicate nodes [] from rfl, getD_replicate] at hu
  split at hu <;> simp at hu

lemma prInv_addEdge {st : PRState} (source target : Nat)
    (h : PRInv st) : PRInv (st.addEdge source target) := by
  obtain ⟨ho, hi, hc⟩ := h
  unfold PRState.addEdge
  split
  · next hr =>
    split
    · exact ⟨ho, hi, hc⟩
    · refine ⟨by simpa using ho, by simpa using hi, ?_⟩
      intro v u hu
      simp only at hu ⊢
      by_cases hveq : v = target
      · subst hveq
        rw [getD_set_self _ _ _ _ (by omega)] at hu
        rcases List.mem_append.mp hu with hold | hnew
        · have hv := hc _ _ hold
          by_cases hueq : u = source
          · subst hueq
            rw [getD_set_self _ _ _ _ (by omega)]
            exact List.mem_append.mpr (Or.inl hv)
          · rwa [getD_set_ne _ _ _ _ _ (fun e => hueq e.symm)]
        · simp only [List.mem_singleton] at hnew
          subst hnew
          rw [getD_set_self _ _ _ _ (by omega)]
          exact List.mem_append.mpr (Or.inr (by simp))
      · rw [getD_set_ne _ _ _ _ _ (fun e => hveq e.symm)] at hu
        have hv := hc _ _ hu
        by_cases hueq : u = source
        · subst hueq
          rw [getD_set_self _ _ _ _ (by omega)]
          exact List.mem_append.mpr (Or.inl hv)
        · rwa [getD_set_ne _ _ _ _ _ (fun e => hueq e.symm)]
  · exact ⟨ho, hi, hc⟩

lemma prBuilt_inv {st : PRState} (h : PRBuilt st) : PRInv st := by
  induction h with
  | init nodes damping iterations threshold hn hd0 hd1 hi ht =>
    exact prInv_init nodes damping iterations threshold
  | addEdge source target _ ih => exact prInv_addEdge source target ih

end C2

/-- **C2 (the code, against the claim).**  In every `PageRank` state built
through `add_edge`, a vertex `u` appearing in some `incoming_links[v]`
necessarily has `outgoing_links[u]` non-empty, so the `out_degree == 0`
("handle dangling nodes") branch of `compute()` is unreachable; a dangling
vertex `u` appears in no incoming list, hence the amount
`dampingFactor·score[u]/n` is added to no vertex at all — the claimed
uniform redistribution never happens. -/
theorem c2_dangling_branch_dead (st : PRState) (h : PRBuilt st) :
    (∀ v u : Nat, u ∈ st.incoming.getD v [] → st.outgoing.getD u [] ≠ []) ∧
    (∀ u : Nat, st.outgoing.getD u [] = [] →
      ∀ v : Nat, u ∉ st.incoming.getD v []) ∧
    (∀ v u : Nat, u ∈ st.incoming.getD v [] →
      st.contribution u =
        st.damping * st.scores.getD u 0 /
          (((st.outgoing.getD u []).length : ℚ))) := by
  obtain ⟨ho, hi, hc⟩ := prBuilt_inv h
  refine ⟨?_, ?_, ?_⟩
  · intro v u hu he
    have hv := hc v u hu
    rw [he] at hv
    exact List.not_mem_nil v hv
  · intro u he v hu
    have hv := hc v u hu
    rw [he] at hv
    exact List.not_mem_nil v hv
  · intro v u hu
    have hv := hc v u hu
    have hlen : 0 < (st.outgoing.getD u []).length :=
      List.length_pos.mpr (fun e => by rw [e] at hv; exact List.not_mem_nil v hv)
    simp only [PRState.contribution]
    rw [if_pos hlen]

/-- **C2 witness**: the dead-branch facts instantiated on the two-node
state with the single edge `0 → 1` (vertex 1 dangling); on that state one
iteration produces the unnormalized scores `[3/40, 1/2]` — the dangling
mass `0.85·score[1]/2` was added nowhere and the total mass 1 is lost. -/
theorem c2_dangling_branch_dead_witness :
    (∀ v u : Nat,
      u ∈ ((PRState.init 2 (17/20) 1 (1/1000000)).addEdge 0 1).incoming.getD v [] →
      ((PRState.init 2 (17/20) 1 (1/1000000)).addEdge 0 1).outgoing.getD u [] ≠ []) ∧
    ((PRState.init 2 (17/20) 1 (1/1000000)).addEdge 0 1).iterScores =
      [3/40, 1/2] := by
  have hb : PRBuilt ((PRState.init 2 (17/20) 1 (1/1000000)).addEdge 0 1) :=
    PRBuilt.addEdge 0 1
      (PRBuilt.init 2 (17/20) 1 (1/1000000) (by decide) (by norm_num)
        (by norm_num) (by decide) (by norm_num))
  refine ⟨(c2_dangling_branch_dead _ hb).1, ?_⟩
  norm_num [PRState.iterScores, PRState.newScoreAt, PRState.contribution,
    PRState.addEdge, PRState.init, List.range_succ, List.replicate]

/-! ### HITS top-k selection (`src/cpp_algorithms/hits.cpp`)

`getTopHubs`/`getTopAuthorities` build the list of `(vertex, score)` pairs in
ascending vertex order and call `std::sort` with the comparator
`a.second > b.second`.  `std::sort` guarantees only a permutation that is
sorted with respect to the comparator — the relative order of equal-score
entries is unspecified — so the call is embedded as a relation between the
input and every output the C++ standard allows, and the prefix of length
`min(k, n)` is returned. -/

/-- The behaviours of `getTopHubs(hubScores, k)` after the `k ≤ 0` guard has
passed: any comparator-sorted permutation of the enumerated score list,
truncated to `min(k, n)`. -/
def getTopHubsRel (hubScores : List ℚ) (k : Nat) (out : List (Nat × ℚ)) :
    Prop :=
  ∃ ranked : List (Nat × ℚ),
    ranked.Perm hubScores.enum ∧
    List.Pairwise (fun a b : Nat × ℚ => b.2 ≤ a.2) ranked ∧
    out = ranked.take (min k hubScores.length)

/-- The behaviours of `getTopAuthorities(authScores, k)` (the code is
identical to `getTopHubs`). -/
def getTopAuthoritiesRel (authScores : List ℚ) (k : Nat)
    (out : List (Nat × ℚ)) : Prop :=
  ∃ ranked : List (Nat × ℚ),
    ranked.Perm authScores.enum ∧
    List.Pairwise (fun a b : Nat × ℚ => b.2 ≤ a.2) ranked ∧
    out = ranked.take (min k authScores.length)

section C6

lemma topRel_spec {scores : List ℚ} {k : Nat} {out : List (Nat × ℚ)}
    (h : ∃ ranked : List (Nat × ℚ),
      ranked.Perm scores.enum ∧
      List.Pairwise (fun a b : Nat × ℚ => b.2 ≤ a.2) ranked ∧
      out = ranked.take (min k scores.length)) :
    out.length = min k scores.length ∧
    List.Pairwise (fun a b : Nat × ℚ => b.2 ≤ a.2) out ∧
    ∃ rest : List (Nat × ℚ), (out ++ rest).Perm scores.enum ∧
      ∀ p ∈ out, ∀ q ∈ rest, q.2 ≤ p.2 := by
  obtain ⟨ranked, hperm, hsort, hout⟩ := h
  have hlen : ranked.length = scores.length := by
    rw [hperm.length_eq]
    simp
  refine ⟨?_, ?_, ranked.drop (min k scores.length), ?_, ?_⟩
  · rw [hout, List.length_take, hlen]
    exact min_eq_left (min_le_right _ _)
  · exact hsort.sublist (hout ▸ List.take_sublist _ _)
  · rw [hout, List.take_append_drop]
    exact hperm
  · intro p hp q hq
    rw [← List.take_append_drop (min k scores.length) ranked,
      List.pairwise_append] at hsort
    exact hsort.2.2 p (hout ▸ hp) q hq

end C6

/-- **C6, counterexample.**  With equal scores `[1, 1]` and `k = 2`, the
output `[(1, 1), (0, 1)]` is a legal result of `getTopHubs` (it is a
comparator-sorted permutation), yet its equal-scoring vertices appear in
descending id order: the "ties broken by ascending vertex id" part of the
claim is not guaranteed, because `std::sort` is not stable. -/
theorem c6_counterexample :
    getTopHubsRel [1, 1] 2 [(1, 1), (0, 1)] ∧
    ¬ List.Pairwise (fun a b : Nat × ℚ => a.2 = b.2 → a.1 < b.1)
        [(1, 1), (0, 1)] := by
  constructor
  · refine ⟨[(1, 1), (0, 1)], ?_, ?_, rfl⟩
    · exact List.Perm.swap (0, 1) (1, 1) []
    · norm_num [List.pairwise_cons]
  · intro hp
    rw [List.pairwise_cons] at hp
    have := hp.1 (0, 1) (by simp)
    norm_num at this

/-- **C6 (amended).**  For every `k ≥ 1` and every score vector, every
result `std::sort` permits for `getTopHubs`/`getTopAuthorities` has length
`min(k, n)`, is sorted descending by score, and consists of the
highest-scoring vertices (every omitted entry scores no more than every
returned one); the relative order of equal-score vertices is unspecified. -/
theorem c6_topk (scores : List ℚ) (k : Nat) (out : List (Nat × ℚ))
    (hk : 1 ≤ k) :
    (getTopHubsRel scores k out →
      out.length = min k scores.length ∧
      List.Pairwise (fun a b : Nat × ℚ => b.2 ≤ a.2) out ∧
      ∃ rest : List (Nat × ℚ), (out ++ rest).Perm scores.enum ∧
        ∀ p ∈ out, ∀ q ∈ rest, q.2 ≤ p.2) ∧
    (getTopAuthoritiesRel scores k out →
      out.length = min k scores.length ∧
      List.Pairwise (fun a b : Nat × ℚ => b.2 ≤ a.2) out ∧
      ∃ rest : List (Nat × ℚ), (out ++ rest).Perm scores.enum ∧
        ∀ p ∈ out, ∀ q ∈ rest, q.2 ≤ p.2) :=
  ⟨fun h => topRel_spec h, fun h => topRel_spec h⟩

/-- **C6 witness**: the amended statement instantiated at scores `[2, 1]`,
`k = 1`, output `[(0, 2)]`. -/
theorem c6_topk_witness :
    1 ≤ 1 ∧ getTopHubsRel [2, 1] 1 [(0, 2)] ∧
    [(0, 2)].length = min 1 ([2, 1] : List ℚ).length := by
  have hrel : getTopHubsRel [2, 1] 1 [(0, 2)] := by
    refine ⟨[(0, 2), (1, 1)], List.Perm.refl _, ?_, rfl⟩
    norm_num [List.pairwise_cons]
  exact ⟨le_refl 1, hrel, ((c6_topk [2, 1] 1 [(0, 2)] (le_refl 1)).1 hrel).1⟩

/-! ### K-core (`src/cpp_algorithms/kcore.cpp`) -/

namespace KCore

/-- Out-degree of `v` restricted to the candidate set, as computed by
`isKCore`: the count of adjacency entries of `v` whose target is in the
set. -/
def subOutDeg (g : Graph) (vset : List Nat) (v : Nat) : Nat :=
  ((g.getNeighbors v).filter (fun p => p.1 ∈ vset)).length

/-- In-degree of `v` restricted to the candidate set, as computed by
`isKCore`: the count of `u < getNumVertices()` in the set with at least one
adjacency entry `u → v` (the inner loop `break`s after the first hit). -/
def subInDeg (g : Graph) (vset : List Nat) (v : Nat) : Nat :=
  ((List.range g.getNumVertices).filter
    (fun u => decide (u ∈ vset) && (g.getNeighbors u).any (fun p => p.1 = v))).length

/-- The per-vertex loop of `isKCore`: validate the current candidate, then
either return `false` on a failed degree test or move on. -/
def isKCoreGo (g : Graph) (vset : List Nat) (k : Int) :
    List Nat → Except Err Bool
  | [] => .ok true
  | v :: rest =>
    if g.hasVertex v then
      if min (subInDeg g vset v : Int) (subOutDeg g vset v : Int) < k then
        .ok false
      else isKCoreGo g vset k rest
    else .error .invalidArgument

/-- `isKCore(graph, vertices, k)`. -/
def isKCore (g : Graph) (vertices : List Nat) (k : Int) : Except Err Bool :=
  if k < 0 then .error .invalidArgument
  else isKCoreGo g vertices k vertices

end KCore

section C7

lemma isKCoreGo_ok {g : Graph} {vset : List Nat} {k : Int}
    (l : List Nat) (h : ∀ v ∈ l, g.hasVertex v) :
    ∃ b : Bool, KCore.isKCoreGo g vset k l = .ok b := by
  induction l with
  | nil => exact ⟨true, rfl⟩
  | cons v rest ih =>
    have hv : g.hasVertex v := h v (by simp)
    simp only [KCore.isKCoreGo, hv, if_true]
    split
    · exact ⟨false, rfl⟩
    · exact ih (fun u hu => h u (by simp [hu]))

lemma isKCoreGo_error {g : Graph} {vset : List Nat} {k : Int} :
    ∀ (pre : List Nat) (v : Nat) (post : List Nat),
    (∀ u ∈ pre, g.hasVertex u ∧
      ¬ min (KCore.subInDeg g vset u : Int) (KCore.subOutDeg g vset u : Int) < k) →
    ¬ g.hasVertex v →
    KCore.isKCoreGo g vset k (pre ++ v :: post) = .error .invalidArgument := by
  intro pre
  induction pre with
  | nil =>
    intro v post _ hv
    simp only [List.nil_append, KCore.isKCoreGo]
    rw [if_neg hv]
  | cons u pre ih =>
    intro v post hpre hv
    obtain ⟨hu, hdeg⟩ := hpre u (by simp)
    simp only [List.cons_append, KCore.isKCoreGo, hu, if_true]
    rw [if_neg hdeg]
    exact ih v post (fun w hw => hpre w (by simp [hw])) hv

end C7

/-- **C7, counterexample.**  On the graph holding only vertex 0 (no edges),
`isKCore([0, 99], 1)` returns `false` instead of raising InvalidArgument,
although candidate 99 is not a vertex of the graph: vertex 0 fails the
degree test first and the unknown-vertex check of later candidates is never
reached. -/
theorem c7_counterexample :
    KCore.isKCore ((Graph.mkGraph true).addVertex 0) [0, 99] 1 = .ok false ∧
    ((Graph.mkGraph true).addVertex 0).hasVertex 99 = false := by
  constructor
  · rfl
  · rfl

/-- **C7 (amended).**  `isKCore` always fails InvalidArgument when `k < 0`;
when every candidate is a known vertex it never fails (it returns a
boolean); and an unknown candidate raises InvalidArgument only when every
earlier candidate in the list passes the restricted min-degree ≥ k test —
otherwise `false` is returned before the unknown vertex is examined. -/
theorem c7_isKCore_errors (g : Graph) (vertices : List Nat) (k : Int) :
    (k < 0 → KCore.isKCore g vertices k = .error .invalidArgument) ∧
    (¬ k < 0 → (∀ v ∈ vertices, g.hasVertex v) →
      ∃ b : Bool, KCore.isKCore g vertices k = .ok b) ∧
    (¬ k < 0 → ∀ (pre : List Nat) (v : Nat) (post : List Nat),
      vertices = pre ++ v :: post →
      (∀ u ∈ pre, g.hasVertex u ∧
        ¬ min (KCore.subInDeg g vertices u : Int)
            (KCore.subOutDeg g vertices u : Int) < k) →
      ¬ g.hasVertex v →
      KCore.isKCore g vertices k = .error .invalidArgument) := by
  refine ⟨?_, ?_, ?_⟩
  · intro hk
    simp only [KCore.isKCore]
    rw [if_pos hk]
  · intro hk hall
    simp only [KCore.isKCore]
    rw [if_neg hk]
    exact isKCoreGo_ok vertices hall
  · intro hk pre v post hsplit hpre hv
    simp only [KCore.isKCore]
    rw [if_neg hk]
    calc KCore.isKCoreGo g vertices k vertices
        = KCore.isKCoreGo g vertices k (pre ++ v :: post) := by rw [hsplit]
      _ = .error .invalidArgument := isKCoreGo_error pre v post hpre hv

/-- **C7 witness**: the amended statement instantiated on the one-vertex
graph — the `k < 0` case fires at `k = -1`, and with all candidates valid
(`[0]`, `k = 0`) no error is raised. -/
theorem c7_isKCore_errors_witness :
    KCore.isKCore ((Graph.mkGraph true).addVertex 0) [0] (-1) =
      .error .invalidArgument ∧
    (∃ b : Bool, KCore.isKCore ((Graph.mkGraph true).addVertex 0) [0] 0 = .ok b) := by
  constructor
  · exact (c7_isKCore_errors ((Graph.mkGraph true).addVertex 0) [0] (-1)).1
      (by decide)
  · exact (c7_isKCore_errors ((Graph.mkGraph true).addVertex 0) [0] 0).2.1
      (by decide) (by decide)

namespace KCore

/-- The in-neighbour sets built by `decompose` (an `unordered_set` per
vertex: `u` is an in-neighbour of `v` when some adjacency entry `u → v`
exists and `u < n`). -/
def inNbrs (g : Graph) (n v : Nat) : List Nat :=
  (List.range n).filter (fun u => (g.getNeighbors u).any (fun p => p.1 = v))

/-- The mutable state of `decompose`: the effective in/out degree counters
and the core numbers.  The C++ `int` values never go below 0 (decrements
are guarded by `> minDegree ≥ 0`), so `Nat` is a faithful carrier. -/
structure KSt where
  inD : List Nat
  outD : List Nat
  core : List Nat
  deriving Repr, DecidableEq

/-- Initial state: degrees from the adjacency and its reverse,
`core[v] = min(inDegree[v], outDegree[v])`. -/
def kcoreInit (g : Graph) (n : Nat) : KSt :=
  { inD := (List.range n).map (fun v => (inNbrs g n v).length)
    outD := (List.range n).map (fun v => (g.getNeighbors v).length)
    core := (List.range n).map
      (fun v => min (inNbrs g n v).length (g.getNeighbors v).length) }

/-- One vertex of the scan: lower the core number to the current
min-degree when it dropped, and propagate guarded decrements to the
neighbours' counters. -/
def kcoreStep (g : Graph) (n : Nat) (p : KSt × Bool) (v : Nat) : KSt × Bool :=
  let st := p.1
  let minDeg := min (st.inD.getD v 0) (st.outD.getD v 0)
  if minDeg < st.core.getD v 0 then
    ({ core := st.core.set v minDeg
       inD := (g.getNeighbors v).foldl
         (fun d q => if minDeg < d.getD q.1 0 then d.set q.1 (d.getD q.1 0 - 1) else d)
         st.inD
       outD := (inNbrs g n v).foldl
         (fun d u => if minDeg < d.getD u 0 then d.set u (d.getD u 0 - 1) else d)
         st.outD }, true)
  else p

/-- One full scan over the vertices, with the `changed` flag. -/
def kcorePass (g : Graph) (n : Nat) (st : KSt) : KSt × Bool :=
  (List.range n).foldl (kcoreStep g n) (st, false)

/-- The scan-until-no-change loop of `decompose`. -/
def kcoreLoop (g : Graph) (n : Nat) : Nat → KSt → KSt
  | 0, st => st
  | fuel + 1, st =>
    let p := kcorePass g n st
    if p.2 then kcoreLoop g n fuel p.1 else p.1

/-- Sum of all core numbers — the termination measure. -/
def coreSum (st : KSt) : Nat := st.core.sum

/-- `decompose()`: reject the empty graph, then run the loop with fuel one
more than the initial measure (shown sufficient below). -/
def decompose (g : Graph) : Except Err (List Nat) :=
  let n := g.getNumVertices
  if n = 0 then .error .invalidArgument
  else .ok (kcoreLoop g n (coreSum (kcoreInit g n) + 1) (kcoreInit g n)).core

end KCore

section C8

lemma sum_set_add (l : List Nat) (i x : Nat) (h : i < l.length) :
    (l.set i x).sum + l.getD i 0 = l.sum + x := by
  induction l generalizing i with
  | nil => simp at h
  | cons a t ih =>
    cases i with
    | zero => simp [List.getD, Nat.add_comm, Nat.add_left_comm]
    | succ j =>
      have := ih j (by simpa using h)
      simp only [List.set, List.sum_cons, List.getD_cons_succ]
      omega

lemma sum_set_lt (l : List Nat) (i x : Nat) (h : i < l.length)
    (hx : x < l.getD i 0) : (l.set i x).sum < l.sum := by
  have := sum_set_add l i x h
  omega

lemma foldl_dec_length {β : Type} (key : β → Nat) (m : Nat) :
    ∀ (qs : List β) (d : List Nat),
    (qs.foldl (fun d q => if m < d.getD (key q) 0
      then d.set (key q) (d.getD (key q) 0 - 1) else d) d).length = d.length := by
  intro qs
  induction qs with
  | nil => intro d; rfl
  | cons q rest ih =>
    intro d
    simp only [List.foldl_cons]
    rw [ih]
    split <;> simp

lemma kcoreStep_facts (g : Graph) (n : Nat) (st : KCore.KSt) (b : Bool) (v : Nat)
    (hv : v < st.core.length) :
    let r := KCore.kcoreStep g n (st, b) v
    r.1.core.length = st.core.length ∧
    r.1.inD.length = st.inD.length ∧
    r.1.outD.length = st.outD.length ∧
    (∀ j, r.1.core.getD j 0 ≤ st.core.getD j 0) ∧
    (r = (st, b) ∨ (r.2 = true ∧ KCore.coreSum r.1 < KCore.coreSum st)) := by
  simp only [KCore.kcoreStep]
  split
  · next hlt =>
    refine ⟨by simp, ?_, ?_, ?_, Or.inr ⟨rfl, ?_⟩⟩
    · exact foldl_dec_length (fun q : Nat × ℚ => q.1) _ _ _
    · exact foldl_dec_length (fun u : Nat => u) _ _ _
    · intro j
      by_cases hj : j = v
      · subst hj
        rw [getD_set_self _ _ _ _ hv]
        exact le_of_lt hlt
      · rw [getD_set_ne _ _ _ _ _ (fun e => hj e.symm)]
    · exact sum_set_lt _ _ _ hv hlt
  · exact ⟨rfl, rfl, rfl, fun j => le_refl _, Or.inl rfl⟩

lemma kcorePass_fold (g : Graph) (n : Nat) :
    ∀ (l : List Nat) (st : KCore.KSt) (b : Bool),
    (∀ v ∈ l, v < st.core.length) →
    let r := l.foldl (KCore.kcoreStep g n) (st, b)
    r.1.core.length = st.core.length ∧
    (∀ j, r.1.core.getD j 0 ≤ st.core.getD j 0) ∧
    (r = (st, b) ∨ (r.2 = true ∧ KCore.coreSum r.1 < KCore.coreSum st)) := by
  intro l
  induction l with
  | nil => exact fun st b _ => ⟨rfl, fun j => le_refl _, Or.inl rfl⟩
  | cons v rest ih =>
    intro st b hl
    have hv : v < st.core.length := hl v (by simp)
    obtain ⟨hclen, _, _, hpt, hdisj⟩ := kcoreStep_facts g n st b v hv
    simp only [List.foldl_cons]
    rcases hdisj with heq | ⟨hflag, hsum⟩
    · rw [heq]
      exact ih st b (fun u hu => hl u (by simp [hu]))
    · set st' := (KCore.kcoreStep g n (st, b) v).1 with hst'
      have hrest : ∀ u ∈ rest, u < st'.core.length := by
        intro u hu
        rw [hclen]
        exact hl u (by simp [hu])
      obtain ⟨ihlen, ihpt, ihdisj⟩ := ih st' (KCore.kcoreStep g n (st, b) v).2 hrest
      refine ⟨by rw [ihlen, hclen], fun j => le_trans (ihpt j) (hpt j), Or.inr ?_⟩
      rcases ihdisj with heq2 | ⟨hflag2, hsum2⟩
      · rw [heq2]
        exact ⟨hflag, hsum⟩
      · exact ⟨hflag2, lt_trans hsum2 hsum⟩

lemma kcoreLoop_fixpoint (g : Graph) (n : Nat) :
    ∀ (fuel : Nat) (st : KCore.KSt), KCore.coreSum st < fuel → st.core.length = n →
    let r := KCore.kcoreLoop g n fuel st
    KCore.kcorePass g n r = (r, false) ∧
    r.core.length = n ∧
    (∀ j, r.core.getD j 0 ≤ st.core.getD j 0) := by
  intro fuel
  induction fuel with
  | zero => intro st h; omega
  | succ f ih =>
    intro st hsum hlen
    have hl : ∀ v ∈ List.range n, v < st.core.length := by
      intro v hv; rw [hlen]; simpa using hv
    obtain ⟨hclen, hpt, hdisj⟩ := kcorePass_fold g n (List.range n) st false hl
    have hpassdef : List.foldl (KCore.kcoreStep g n) (st, false) (List.range n) =
        KCore.kcorePass g n st := rfl
    rw [hpassdef] at hclen hpt hdisj
    simp only [KCore.kcoreLoop]
    rcases hdisj with heq | ⟨hflag, hsum'⟩
    · rw [heq]
      simp only [if_neg (by simp : ¬ (false = true))]
      exact ⟨heq, hlen, fun j => le_refl _⟩
    · rw [hflag]
      simp only [if_pos rfl]
      have hlen' : (KCore.kcorePass g n st).1.core.length = n := by
        rw [hclen, hlen]
      obtain ⟨h1, h2, h3⟩ := ih (KCore.kcorePass g n st).1 (by omega) hlen'
      exact ⟨h1, h2, fun j => le_trans (h3 j) (hpt j)⟩

end C8

/-- **C8 (confirmed).**  For every non-empty graph, `decompose` terminates:
a full scan either changes no core number (and then it is the identity on
the state, so the loop exits) or strictly lowers the sum of the core
numbers, which never increase and are bounded below by 0; running the loop
with fuel `1 + Σ initial core numbers` therefore reaches a state on which a
further scan reports no change, and `decompose` returns that fixpoint. -/
theorem c8_decompose_terminates (g : Graph) (h : 0 < g.getNumVertices) :
    (∀ st : KCore.KSt, st.core.length = g.getNumVertices →
      (let p := KCore.kcorePass g g.getNumVertices st
       (p.2 = false → p.1 = st) ∧
       (p.2 = true → KCore.coreSum p.1 < KCore.coreSum st) ∧
       (∀ j, p.1.core.getD j 0 ≤ st.core.getD j 0))) ∧
    (let n := g.getNumVertices
     let r := KCore.kcoreLoop g n (KCore.coreSum (KCore.kcoreInit g n) + 1)
       (KCore.kcoreInit g n)
     KCore.decompose g = .ok r.core ∧
     KCore.kcorePass g n r = (r, false) ∧
     (∀ j, r.core.getD j 0 ≤ (KCore.kcoreInit g n).core.getD j 0)) := by
  constructor
  · intro st hlen
    have hl : ∀ v ∈ List.range g.getNumVertices, v < st.core.length := by
      intro v hv; rw [hlen]; simpa using hv
    obtain ⟨_, hpt, hdisj⟩ :=
      kcorePass_fold g g.getNumVertices (List.range g.getNumVertices) st false hl
    refine ⟨?_, ?_, hpt⟩
    · intro hfl
      rcases hdisj with heq | ⟨hflag, _⟩
      · rw [show KCore.kcorePass g g.getNumVertices st = (st, false) from heq]
      · rw [show (KCore.kcorePass g g.getNumVertices st).2 = true from hflag] at hfl
        cases hfl
    · intro hfl
      rcases hdisj with heq | ⟨_, hsum⟩
      · rw [show KCore.kcorePass g g.getNumVertices st = (st, false) from heq] at hfl
        cases hfl
      · exact hsum
  · have hinit : (KCore.kcoreInit g g.getNumVertices).core.length =
        g.getNumVertices := by
      simp [KCore.kcoreInit]
    obtain ⟨h1, _, h3⟩ := kcoreLoop_fixpoint g g.getNumVertices
      (KCore.coreSum (KCore.kcoreInit g g.getNumVertices) + 1)
      (KCore.kcoreInit g g.getNumVertices) (by omega) hinit
    refine ⟨?_, h1, h3⟩
    simp only [KCore.decompose]
    rw [if_neg (by omega)]

/-- **C8 witness**: the termination statement instantiated on the directed
3-cycle `0→1→2→0`. -/
theorem c8_decompose_terminates_witness :
    0 < (((Graph.mkGraph true).addEdge 0 1 1).addEdge 1 2 1 |>.addEdge 2 0 1).getNumVertices ∧
    KCore.decompose (((Graph.mkGraph true).addEdge 0 1 1).addEdge 1 2 1 |>.addEdge 2 0 1) =
      .ok (KCore.kcoreLoop (((Graph.mkGraph true).addEdge 0 1 1).addEdge 1 2 1 |>.addEdge 2 0 1) 3
        (KCore.coreSum (KCore.kcoreInit (((Graph.mkGraph true).addEdge 0 1 1).addEdge 1 2 1 |>.addEdge 2 0 1) 3) + 1)
        (KCore.kcoreInit (((Graph.mkGraph true).addEdge 0 1 1).addEdge 1 2 1 |>.addEdge 2 0 1) 3)).core := by
  have hg : 0 < (((Graph.mkGraph true).addEdge 0 1 1).addEdge 1 2 1 |>.addEdge 2 0 1).getNumVertices := by
    decide
  have hn : (((Graph.mkGraph true).addEdge 0 1 1).addEdge 1 2 1 |>.addEdge 2 0 1).getNumVertices = 3 := by
    decide
  refine ⟨hg, ?_⟩
  have := ((c8_decompose_terminates _ hg).2).1
  rw [hn] at this
  exact this

/-! ### DFS, iterative and recursive (`src/cpp_algorithms/bfs_dfs.cpp`) -/

namespace GraphTraversal

/-- The shared mutable state of both DFS variants: traversal order,
discovery/finish time stamps (arrays of size `getNumVertices`, `-1` for
unvisited), the visited set, and the time counter. -/
structure TSt where
  traversal : List Nat
  disc : List Int
  fin : List Int
  visited : List Nat
  time : Nat
  deriving Repr, DecidableEq

/-- Fresh state with both stamp arrays filled with `-1`. -/
def initTSt (g : Graph) : TSt :=
  { traversal := []
    disc := List.replicate g.getNumVertices (-1)
    fin := List.replicate g.getNumVertices (-1)
    visited := []
    time := 0 }

/-- Discovery of `v`: mark visited, append to the traversal, stamp
`discoveryTime[v] = time++`. -/
def visitMark (v : Nat) (st : TSt) : TSt :=
  { st with
    visited := v :: st.visited
    traversal := st.traversal ++ [v]
    disc := st.disc.set v (st.time : Int)
    time := st.time + 1 }

/-- Finishing of `v`: stamp `finishTime[v] = time++`. -/
def finishMark (v : Nat) (st : TSt) : TSt :=
  { st with fin := st.fin.set v (st.time : Int), time := st.time + 1 }

/-- One neighbour step of the recursive DFS at fuel `n`: skip a visited
neighbour, recurse into an unvisited one. -/
def recStep (g : Graph) (dfsV : Nat → TSt → Option TSt) (s : TSt)
    (q : Nat × ℚ) : Option TSt :=
  if q.1 ∈ s.visited then some s else dfsV q.1 s

/-- `dfsRecursive(graph, vertex, …)` (the recursive helper), with fuel
bounding the recursion depth; called on an unvisited vertex it marks and
stamps it, folds over the neighbours in adjacency order, and stamps the
finish time. -/
def dfsVisit (g : Graph) : Nat → Nat → TSt → Option TSt
  | 0, _, _ => none
  | n + 1, v, st =>
    ((g.getNeighbors v).foldlM (recStep g (dfsVisit g n)) (visitMark v st)).map
      (finishMark v)

/-- A stack entry of the iterative DFS: `(vertex, isDiscovery)`. -/
inductive Entry where
  | enter (v : Nat)
  | leave (v : Nat)
  deriving Repr, DecidableEq

/-- The explicit-stack loop of the iterative `dfs`, with fuel counting
pops.  An `enter` pop of a visited vertex is ignored; an `enter` pop of an
unvisited vertex marks and stamps it, pushes its `leave` entry and then the
still-unvisited neighbours in reverse adjacency order (so that the head of
the stack is the first neighbour); a `leave` pop stamps the finish time. -/
def runStack (g : Graph) : Nat → List Entry → TSt → Option TSt
  | _, [], st => some st
  | 0, _ :: _, _ => none
  | f + 1, e :: s, st =>
    match e with
    | .leave v => runStack g f s (finishMark v st)
    | .enter v =>
      if v ∈ st.visited then runStack g f s st
      else
        let st1 := visitMark v st
        runStack g f
          (((g.getNeighbors v).filter
              (fun q => decide (q.1 ∉ st1.visited))).map (fun q => Entry.enter q.1)
            ++ Entry.leave v :: s) st1

/-- All vertex ids occurring in the adjacency map (keys and targets);
every vertex the traversals can reach beyond the start is in this list. -/
def allNodes (g : Graph) : List Nat :=
  g.adjList.map (fun p => p.1) ++
    (g.adjList.map (fun p => p.2.map (fun q => q.1))).join

/-- Fuel for the recursive variant: the recursion depth is bounded by the
number of distinct reachable vertices. -/
def fuelR (g : Graph) : Nat :=
  (allNodes g).dedup.length + 1

/-- Fuel for the iterative variant: every vertex is entered and left at
most once and each adjacency list is pushed at most once. -/
def fuelI (g : Graph) (s : Nat) : Nat :=
  (((s :: allNodes g).dedup).map (fun v => 2 + (g.getNeighbors v).length)).sum + 1

/-- `GraphTraversal::dfs` (iterative, explicit stack). -/
def dfs (g : Graph) (startVertex : Nat) :
    Except Err (List Nat × List Int × List Int) :=
  if g.hasVertex startVertex then
    match runStack g (fuelI g startVertex) [Entry.enter startVertex] (initTSt g) with
    | some r => .ok (r.traversal, r.disc, r.fin)
    | none => .error .fuelExhausted
  else .error .invalidArgument

/-- `GraphTraversal::dfsRecursive` (recursive wrapper). -/
def dfsRecursive (g : Graph) (startVertex : Nat) :
    Except Err (List Nat × List Int × List Int) :=
  if g.hasVertex startVertex then
    match dfsVisit g (fuelR g) startVertex (initTSt g) with
    | some r => .ok (r.traversal, r.disc, r.fin)
    | none => .error .fuelExhausted
  else .error .invalidArgument

end GraphTraversal

section C3

open GraphTraversal

lemma runStack_nil (g : Graph) (f : Nat) (st : TSt) :
    runStack g f [] st = some st := by
  cases f <;> rfl

lemma runStack_leave (g : Graph) (f : Nat) (v : Nat) (s : List Entry)
    (st : TSt) :
    runStack g (f + 1) (Entry.leave v :: s) st =
      runStack g f s (finishMark v st) := rfl

lemma runStack_enter_visited (g : Graph) (f : Nat) (v : Nat) (s : List Entry)
    (st : TSt) (h : v ∈ st.visited) :
    runStack g (f + 1) (Entry.enter v :: s) st = runStack g f s st := by
  simp only [runStack]
  rw [if_pos h]

lemma runStack_enter_new (g : Graph) (f : Nat) (v : Nat) (s : List Entry)
    (st : TSt) (h : v ∉ st.visited) :
    runStack g (f + 1) (Entry.enter v :: s) st =
      runStack g f
        (((g.getNeighbors v).filter
            (fun q => decide (q.1 ∉ (visitMark v st).visited))).map
              (fun q => Entry.enter q.1)
          ++ Entry.leave v :: s) (visitMark v st) := by
  simp only [runStack]
  rw [if_neg h]

lemma dfsVisit_succ (g : Graph) (n : Nat) (v : Nat) (st : TSt) :
    dfsVisit g (n + 1) v st =
      ((g.getNeighbors v).foldlM (recStep g (dfsVisit g n)) (visitMark v st)).map
        (finishMark v) := rfl

lemma runStack_mono (g : Graph) :
    ∀ (f : Nat) (s : List Entry) (st r : TSt),
    runStack g f s st = some r → ∀ k, runStack g (f + k) s st = some r := by
  intro f
  induction f with
  | zero =>
    intro s st r h k
    cases s with
    | nil => rw [runStack_nil] at h ⊢; exact h
    | cons e t => exact absurd h (by simp [runStack])
  | succ m ih =>
    intro s st r h k
    cases s with
    | nil => rw [runStack_nil] at h ⊢; exact h
    | cons e t =>
      have harith : m + 1 + k = m + k + 1 := by omega
      cases e with
      | leave v =>
        rw [runStack_leave] at h
        rw [harith, runStack_leave]
        exact ih _ _ _ h k
      | enter v =>
        by_cases hv : v ∈ st.visited
        · rw [runStack_enter_visited g m v t st hv] at h
          rw [harith, runStack_enter_visited g (m + k) v t st hv]
          exact ih _ _ _ h k
        · rw [runStack_enter_new g m v t st hv] at h
          rw [harith, runStack_enter_new g (m + k) v t st hv]
          exact ih _ _ _ h k

lemma foldlM_visited_mono (g : Graph) (dfsV : Nat → TSt → Option TSt)
    (hdfs : ∀ v st r, dfsV v st = some r → ∀ x ∈ st.visited, x ∈ r.visited) :
    ∀ (l : List (Nat × ℚ)) (st r : TSt),
    l.foldlM (recStep g dfsV) st = some r → ∀ x ∈ st.visited, x ∈ r.visited := by
  intro l
  induction l with
  | nil =>
    intro st r h
    simp only [List.foldlM_nil, Option.pure_def, Option.some.injEq] at h
    subst h
    exact fun x hx => hx
  | cons q t ih =>
    intro st r h x hx
    rw [List.foldlM_cons] at h
    rcases Option.bind_eq_some.mp h with ⟨s', hs', hrest⟩
    by_cases hq : q.1 ∈ st.visited
    · rw [recStep, if_pos hq] at hs'
      cases hs'
      exact ih st r hrest x hx
    · rw [recStep, if_neg hq] at hs'
      exact ih s' r hrest x (hdfs q.1 st s' hs' x hx)

lemma dfsVisit_visited_mono (g : Graph) :
    ∀ (n : Nat) (v : Nat) (st r : TSt),
    dfsVisit g n v st = some r → ∀ x ∈ st.visited, x ∈ r.visited := by
  intro n
  induction n with
  | zero => intro v st r h; exact absurd h (by simp [dfsVisit])
  | succ m ih =>
    intro v st r h x hx
    rw [dfsVisit_succ] at h
    rcases Option.map_eq_some'.mp h with ⟨st2, hst2, hr⟩
    subst hr
    exact foldlM_visited_mono g (dfsVisit g m) ih _ _ _ hst2 x
      (by simp [visitMark, hx])

lemma sim_fold (g : Graph) (n : Nat)
    (hS : ∀ (v : Nat) (st r : TSt), v ∉ st.visited →
      dfsVisit g n v st = some r →
      ∃ f, ∀ (rest : List Entry) (gf : Nat),
        runStack g (f + gf) (Entry.enter v :: rest) st = runStack g gf rest r) :
    ∀ (l : List (Nat × ℚ)) (V : List Nat) (st r : TSt),
    (∀ x ∈ V, x ∈ st.visited) →
    l.foldlM (recStep g (dfsVisit g n)) st = some r →
    ∃ f, ∀ (rest : List Entry) (gf : Nat),
      runStack g (f + gf)
        ((l.filter (fun q => decide (q.1 ∉ V))).map (fun q => Entry.enter q.1)
          ++ rest) st
      = runStack g gf rest r := by
  intro l
  induction l with
  | nil =>
    intro V st r _ h
    simp only [List.foldlM_nil, Option.pure_def, Option.some.injEq] at h
    subst h
    exact ⟨0, fun rest gf => by rw [Nat.zero_add]; rfl⟩
  | cons q t ih =>
    intro V st r hV h
    rw [List.foldlM_cons] at h
    rcases Option.bind_eq_some.mp h with ⟨s', hs', hrest⟩
    by_cases hqst : q.1 ∈ st.visited
    · rw [recStep, if_pos hqst] at hs'
      cases hs'
      by_cases hqV : q.1 ∈ V
      · obtain ⟨f, hf⟩ := ih V st r hV hrest
        refine ⟨f, fun rest gf => ?_⟩
        have : (q :: t).filter (fun q => decide (q.1 ∉ V)) =
            t.filter (fun q => decide (q.1 ∉ V)) := by
          rw [List.filter_cons]
          simp [hqV]
        rw [this]
        exact hf rest gf
      · obtain ⟨f, hf⟩ := ih V st r hV hrest
        refine ⟨f + 1, fun rest gf => ?_⟩
        have hfil : (q :: t).filter (fun q => decide (q.1 ∉ V)) =
            q :: t.filter (fun q => decide (q.1 ∉ V)) := by
          rw [List.filter_cons]
          simp [hqV]
        rw [hfil]
        have harith : f + 1 + gf = f + gf + 1 := by omega
        rw [harith]
        simp only [List.map_cons, List.cons_append]
        rw [runStack_enter_visited g (f + gf) q.1 _ st hqst]
        exact hf rest gf
    · have hqV : q.1 ∉ V := fun hmem => hqst (hV q.1 hmem)
      rw [recStep, if_neg hqst] at hs'
      obtain ⟨f1, hf1⟩ := hS q.1 st s' hqst hs'
      have hVs' : ∀ x ∈ V, x ∈ s'.visited := fun x hx =>
        dfsVisit_visited_mono g n q.1 st s' hs' x (hV x hx)
      obtain ⟨f2, hf2⟩ := ih V s' r hVs' hrest
      refine ⟨f1 + f2, fun rest gf => ?_⟩
      have hfil : (q :: t).filter (fun q => decide (q.1 ∉ V)) =
          q :: t.filter (fun q => decide (q.1 ∉ V)) := by
        rw [List.filter_cons]
        simp [hqV]
      rw [hfil]
      simp only [List.map_cons, List.cons_append]
      have harith : f1 + f2 + gf = f1 + (f2 + gf) := by omega
      rw [harith, hf1 _ (f2 + gf)]
      exact hf2 rest gf

lemma sim_enter (g : Graph) :
    ∀ (n : Nat) (v : Nat) (st r : TSt), v ∉ st.visited →
    dfsVisit g n v st = some r →
    ∃ f, ∀ (rest : List Entry) (gf : Nat),
      runStack g (f + gf) (Entry.enter v :: rest) st = runStack g gf rest r := by
  intro n
  induction n with
  | zero => intro v st r _ h; exact absurd h (by simp [dfsVisit])
  | succ m ih =>
    intro v st r hv h
    rw [dfsVisit_succ] at h
    rcases Option.map_eq_some'.mp h with ⟨st2, hst2, hr⟩
    subst hr
    obtain ⟨f2, hf2⟩ := sim_fold g m ih (g.getNeighbors v)
      (visitMark v st).visited (visitMark v st) st2 (fun x hx => hx) hst2
    refine ⟨f2 + 2, fun rest gf => ?_⟩
    have h1 : f2 + 2 + gf = (f2 + 1 + gf) + 1 := by omega
    rw [h1, runStack_enter_new g _ v rest st hv]
    have h2 : f2 + 1 + gf = f2 + (1 + gf) := by omega
    rw [h2, hf2 (Entry.leave v :: rest) (1 + gf)]
    have h3 : 1 + gf = gf + 1 := by omega
    rw [h3, runStack_leave]

lemma neighbors_mem_allNodes (g : Graph) (v : Nat) {q : Nat × ℚ}
    (hq : q ∈ g.getNeighbors v) : q.1 ∈ allNodes g := by
  unfold Graph.getNeighbors at hq
  cases hfind : g.adjList.find? (fun p => p.1 = v) with
  | none => rw [hfind] at hq; cases hq
  | some p =>
    rw [hfind] at hq
    have hp : p ∈ g.adjList := List.mem_of_find?_eq_some hfind
    unfold allNodes
    refine List.mem_append.mpr (Or.inr ?_)
    exact List.mem_join.mpr ⟨p.2.map (fun q => q.1),
      List.mem_map.mpr ⟨p, hp, rfl⟩, List.mem_map.mpr ⟨q, hq, rfl⟩⟩

lemma key_mem_allNodes (g : Graph) (v : Nat)
    (h : g.getNeighbors v ≠ []) : v ∈ allNodes g := by
  unfold Graph.getNeighbors at h
  cases hfind : g.adjList.find? (fun p => p.1 = v) with
  | none => rw [hfind] at h; exact absurd rfl h
  | some p =>
    have hp : p ∈ g.adjList := List.mem_of_find?_eq_some hfind
    have hpv : p.1 = v := by
      have h2 := List.find?_some hfind
      exact of_decide_eq_true h2
    unfold allNodes
    exact List.mem_append.mpr (Or.inl (hpv ▸ List.mem_map.mpr ⟨p, hp, rfl⟩))

lemma filter_length_mono (l : List Nat) (p q : Nat → Bool)
    (h : ∀ x, p x = true → q x = true) :
    (l.filter p).length ≤ (l.filter q).length := by
  induction l with
  | nil => exact le_refl 0
  | cons a t ih =>
    rw [List.filter_cons, List.filter_cons]
    by_cases hp : p a = true
    · rw [if_pos hp, if_pos (h a hp)]
      simpa using ih
    · rw [if_neg hp]
      split
      · exact le_trans ih (by simp)
      · exact ih

lemma sum_filter_insert (l : List Nat) (hl : l.Nodup) (vis : List Nat)
    (v : Nat) (hv : v ∈ l) (hnv : v ∉ vis) (f : Nat → Nat) :
    ((l.filter (fun x => decide (x ∉ v :: vis))).map f).sum + f v
      = ((l.filter (fun x => decide (x ∉ vis))).map f).sum := by
  induction l with
  | nil => cases hv
  | cons a t ih =>
    obtain ⟨hat, htn⟩ := List.nodup_cons.mp hl
    by_cases hav : a = v
    · subst hav
      have hvt : a ∉ t := hat
      rw [List.filter_cons, List.filter_cons]
      rw [if_neg (by simp), if_pos (by simpa using hnv)]
      have hcong : t.filter (fun x => decide (x ∉ a :: vis)) =
          t.filter (fun x => decide (x ∉ vis)) := by
        apply List.filter_congr
        intro x hx
        have hxa : x ≠ a := fun e => hvt (e ▸ hx)
        apply decide_eq_decide.mpr
        simp [List.mem_cons, hxa]
      rw [hcong]
      simp [Nat.add_comm]
    · have hvt : v ∈ t := by
        rcases List.mem_cons.mp hv with h | h
        · exact absurd h.symm hav
        · exact h
      have hsame : (decide (a ∉ v :: vis)) = (decide (a ∉ vis)) := by
        apply decide_eq_decide.mpr
        simp [List.mem_cons, hav]
      rw [List.filter_cons, List.filter_cons, hsame]
      by_cases ha : a ∉ vis
      · rw [if_pos (by simpa using ha), if_pos (by simpa using ha)]
        simp only [List.map_cons, List.sum_cons]
        have := ih htn hvt
        omega
      · rw [if_neg (by simpa using ha), if_neg (by simpa using ha)]
        exact ih htn hvt

lemma sum_map_one (l : List Nat) : (l.map (fun _ => 1)).sum = l.length := by
  induction l with
  | nil => rfl
  | cons a t ih => simp [ih, Nat.add_comm]

/-- Recursion-depth measure: distinct adjacency-reachable ids not yet
visited. -/
def measR (g : Graph) (st : TSt) : Nat :=
  ((allNodes g).dedup.filter (fun x => decide (x ∉ st.visited))).length

/-- Stack-machine potential: each unvisited id can cost one enter pop, one
leave pop, and one push of its adjacency list. -/
def measI (g : Graph) (s0 : Nat) (st : TSt) : Nat :=
  (((s0 :: allNodes g).dedup.filter (fun x => decide (x ∉ st.visited))).map
    (fun v => 2 + (g.getNeighbors v).length)).sum

lemma measR_visit_lt (g : Graph) {v : Nat} {st : TSt}
    (hvU : v ∈ allNodes g) (hv : v ∉ st.visited) :
    measR g (visitMark v st) + 1 = measR g st := by
  have h := sum_filter_insert (allNodes g).dedup (List.nodup_dedup _)
    st.visited v (List.mem_dedup.mpr hvU) hv (fun _ => 1)
  unfold measR
  rw [← sum_map_one (((allNodes g).dedup.filter
      (fun x => decide (x ∉ (visitMark v st).visited)))),
    ← sum_map_one (((allNodes g).dedup.filter
      (fun x => decide (x ∉ st.visited))))]
  simpa [visitMark] using h

lemma measR_mono (g : Graph) {st st' : TSt}
    (h : ∀ x ∈ st.visited, x ∈ st'.visited) :
    measR g st' ≤ measR g st := by
  apply filter_length_mono
  intro x hx
  have : x ∉ st'.visited := of_decide_eq_true hx
  exact decide_eq_true (fun hmem => this (h x hmem))

lemma dfsVisit_total (g : Graph) :
    ∀ (n : Nat) (v : Nat) (st : TSt),
    v ∉ st.visited → measR g st ≤ n → (dfsVisit g (n + 1) v st).isSome := by
  intro n
  induction n with
  | zero =>
    intro v st hv hm
    rw [dfsVisit_succ]
    by_cases hnb : g.getNeighbors v = []
    · rw [hnb]
      simp
    · exfalso
      have hvU : v ∈ allNodes g := key_mem_allNodes g v hnb
      have hmem : v ∈ (allNodes g).dedup.filter
          (fun x => decide (x ∉ st.visited)) :=
        List.mem_filter.mpr ⟨List.mem_dedup.mpr hvU, decide_eq_true hv⟩
      have : 0 < measR g st := List.length_pos.mpr (fun e => by
        rw [e] at hmem; cases hmem)
      omega
  | succ m ihA =>
    intro v st hv hm
    rw [dfsVisit_succ]
    have hAF : ∀ (l : List (Nat × ℚ)) (s : TSt),
        (∀ q ∈ l, q.1 ∈ allNodes g) → measR g s ≤ m →
        (l.foldlM (recStep g (dfsVisit g (m + 1))) s).isSome := by
      intro l
      induction l with
      | nil => intro s _ _; simp
      | cons q t ihl =>
        intro s hcl hms
        rw [List.foldlM_cons]
        by_cases hq : q.1 ∈ s.visited
        · rw [recStep, if_pos hq]
          exact ihl s (fun p hp => hcl p (by simp [hp])) hms
        · rw [recStep, if_neg hq]
          obtain ⟨s', hs'⟩ := Option.isSome_iff_exists.mp (ihA q.1 s hq hms)
          rw [hs']
          exact ihl s' (fun p hp => hcl p (by simp [hp]))
            (le_trans (measR_mono g (dfsVisit_visited_mono g _ _ _ _ hs')) hms)
    by_cases hnb : g.getNeighbors v = []
    · rw [hnb]
      simp
    · have hvU : v ∈ allNodes g := key_mem_allNodes g v hnb
      have hms : measR g (visitMark v st) ≤ m := by
        have := measR_visit_lt g hvU hv
        omega
      have := hAF (g.getNeighbors v) (visitMark v st)
        (fun p hp => neighbors_mem_allNodes g v hp) hms
      obtain ⟨x, hx⟩ := Option.isSome_iff_exists.mp this
      rw [hx]
      rfl

lemma measI_visit (g : Graph) (s0 : Nat) {v : Nat} {st : TSt}
    (hvU : v ∈ s0 :: allNodes g) (hv : v ∉ st.visited) :
    measI g s0 (visitMark v st) + (2 + (g.getNeighbors v).length)
      = measI g s0 st := by
  have h := sum_filter_insert (s0 :: allNodes g).dedup (List.nodup_dedup _)
    st.visited v (List.mem_dedup.mpr hvU) hv
    (fun v => 2 + (g.getNeighbors v).length)
  simpa [measI, visitMark] using h

lemma runStack_total (g : Graph) (s0 : Nat) :
    ∀ (fuel : Nat) (stack : List Entry) (st : TSt),
    (∀ v, Entry.enter v ∈ stack → v ∈ s0 :: allNodes g) →
    stack.length + measI g s0 st ≤ fuel →
    (runStack g fuel stack st).isSome := by
  intro fuel
  induction fuel with
  | zero =>
    intro stack st _ hb
    cases stack with
    | nil => rw [runStack_nil]; rfl
    | cons e sk => simp [List.length_cons] at hb
  | succ f ih =>
    intro stack st hcl hb
    cases stack with
    | nil => rw [runStack_nil]; rfl
    | cons e sk =>
      cases e with
      | leave v =>
        rw [runStack_leave]
        have hmi : measI g s0 (finishMark v st) = measI g s0 st := rfl
        apply ih sk (finishMark v st)
          (fun u hu => hcl u (by simp [hu]))
        rw [hmi]
        simp only [List.length_cons] at hb
        omega
      | enter v =>
        by_cases hv : v ∈ st.visited
        · rw [runStack_enter_visited g f v sk st hv]
          apply ih sk st (fun u hu => hcl u (by simp [hu]))
          simp only [List.length_cons] at hb
          omega
        · rw [runStack_enter_new g f v sk st hv]
          have hvU : v ∈ s0 :: allNodes g := hcl v (by simp)
          have hmi := measI_visit g s0 hvU hv
          apply ih
          · intro u hu
            rcases List.mem_append.mp hu with hl | hr
            · obtain ⟨q, hq, he⟩ := List.mem_map.mp hl
              have : q.1 = u := by
                injection he
              exact this ▸ List.mem_cons.mpr (Or.inr (neighbors_mem_allNodes g v
                (List.mem_filter.mp hq).1))
            · rcases List.mem_cons.mp hr with he | hsk
              · cases he
              · exact hcl u (by simp [hsk])
          · have hflt : (((g.getNeighbors v).filter
                (fun q => decide (q.1 ∉ (visitMark v st).visited))).map
                  (fun q => Entry.enter q.1)).length ≤
                (g.getNeighbors v).length := by
              rw [List.length_map]
              exact List.length_filter_le _ _
            simp only [List.length_append, List.length_cons,
              List.length_map] at *
            omega

lemma measR_init (g : Graph) : measR g (initTSt g) = (allNodes g).dedup.length := by
  unfold measR initTSt
  have : ∀ x ∈ (allNodes g).dedup,
      (fun x => decide (x ∉ ([] : List Nat))) x = true := by
    intro x _
    simp
  rw [List.filter_eq_self.mpr this]

lemma measI_init (g : Graph) (s0 : Nat) :
    measI g s0 (initTSt g) + 1 = fuelI g s0 := by
  unfold measI initTSt fuelI
  have : ∀ x ∈ (s0 :: allNodes g).dedup,
      (fun x => decide (x ∉ ([] : List Nat))) x = true := by
    intro x _
    simp
  rw [List.filter_eq_self.mpr this]

end C3

/-- **C3 (confirmed).**  For every graph and every start vertex, the
iterative explicit-stack `dfs` and the recursive `dfsRecursive` return the
same value — in particular, for a start vertex present in the graph, an
identical traversal order, an identical discovery-time array and an
identical finish-time array (and the same InvalidArgument failure for an
absent start vertex). -/
theorem c3_dfs_equivalence (g : Graph) (s : Nat) :
    GraphTraversal.dfs g s = GraphTraversal.dfsRecursive g s := by
  unfold GraphTraversal.dfs GraphTraversal.dfsRecursive
  by_cases hs : g.hasVertex s
  · rw [if_pos hs, if_pos hs]
    have hrecS : (GraphTraversal.dfsVisit g (GraphTraversal.fuelR g) s
        (GraphTraversal.initTSt g)).isSome := by
      have := dfsVisit_total g ((GraphTraversal.allNodes g).dedup.length) s
        (GraphTraversal.initTSt g)
        (by simp [GraphTraversal.initTSt])
        (le_of_eq (measR_init g))
      exact this
    obtain ⟨r, hr⟩ := Option.isSome_iff_exists.mp hrecS
    have hstkS : (GraphTraversal.runStack g (GraphTraversal.fuelI g s)
        [GraphTraversal.Entry.enter s] (GraphTraversal.initTSt g)).isSome := by
      apply runStack_total g s
      · intro v hv
        simp only [List.mem_singleton] at hv
        injection hv with he
        exact he ▸ List.mem_cons_self s _
      · have := measI_init g s
        simp only [List.length_singleton]
        omega
    obtain ⟨r', hr'⟩ := Option.isSome_iff_exists.mp hstkS
    obtain ⟨f, hf⟩ := sim_enter g (GraphTraversal.fuelR g) s
      (GraphTraversal.initTSt g) r (by simp [GraphTraversal.initTSt]) hr
    have h1 : GraphTraversal.runStack g (f + 0)
        [GraphTraversal.Entry.enter s] (GraphTraversal.initTSt g) = some r := by
      have := hf [] 0
      rwa [runStack_nil] at this
    have h2 := runStack_mono g _ _ _ _ h1 (GraphTraversal.fuelI g s)
    have h3 := runStack_mono g _ _ _ _ hr' (f + 0)
    rw [Nat.add_comm (GraphTraversal.fuelI g s) (f + 0)] at h3
    have hrr : r = r' := by
      have := h2.symm.trans h3
      injection this
    rw [hr, hr', hrr]
  · rw [if_neg hs, if_neg hs]

/-! ### Checked array access

`std::vector::operator[]` with an out-of-range index is undefined
behaviour; the embedding makes every such access explicit: a read or write
with an index outside the array produces the `outOfBounds` error. -/

/-- Checked read. -/
def idx? {α : Type} (l : List α) (i : Nat) : Except Err α :=
  match l.get? i with
  | some x => .ok x
  | none => .error .outOfBounds

/-- Checked write. -/
def wr? {α : Type} (l : List α) (i : Nat) (x : α) : Except Err (List α) :=
  if i < l.length then .ok (l.set i x) else .error .outOfBounds

lemma idx?_eq_ok {α : Type} {l : List α} {i : Nat} {x : α} :
    idx? l i = .ok x ↔ l.get? i = some x := by
  unfold idx?
  cases h : l.get? i with
  | none => simp
  | some y => simp

lemma idx?_of_lt {α : Type} {l : List α} {i : Nat} (h : i < l.length) :
    ∃ x, idx? l i = .ok x ∧ l.get? i = some x := by
  have hx : l.get? i = some (l.get ⟨i, h⟩) := List.get?_eq_get h
  exact ⟨l.get ⟨i, h⟩, idx?_eq_ok.mpr hx, hx⟩

lemma wr?_of_lt {α : Type} {l : List α} {i : Nat} (h : i < l.length) (x : α) :
    wr? l i x = .ok (l.set i x) := by
  unfold wr?
  rw [if_pos h]

/-! ### BFS (`src/cpp_algorithms/bfs_dfs.cpp`, `GraphTraversal::bfs`) -/

namespace GraphTraversal

/-- One neighbour of the BFS inner loop: an unvisited neighbour is marked,
given `distances[next] = distances[current] + 1`, and enqueued at the
tail.  State: (distances, visited, queue). -/
def bfsStep (g : Graph) (current : Nat)
    (s : List Int × List Nat × List Nat) (q : Nat × ℚ) :
    Except Err (List Int × List Nat × List Nat) := do
  let (d, vis, qu) := s
  if q.1 ∈ vis then
    return (d, vis, qu)
  else
    let dc ← idx? d current
    let d' ← wr? d q.1 (dc + 1)
    return (d', q.1 :: vis, qu ++ [q.1])

/-- The FIFO loop of `bfs`, fuelled by pops. -/
def bfsLoop (g : Graph) :
    Nat → List Nat → List Int → List Nat → List Nat →
    Except Err (List Nat × List Int)
  | 0, _, _, _, _ => .error .fuelExhausted
  | _ + 1, traversal, d, [], _ => .ok (traversal, d)
  | fuel + 1, traversal, d, current :: qrest, vis => do
    let (d', vis', qu') ← (g.getNeighbors current).foldlM (bfsStep g current)
      (d, vis, qrest)
    bfsLoop g fuel (traversal ++ [current]) d' qu' vis'

/-- Pop budget for `bfs`: every enqueued vertex is marked on push, so the
number of pops is bounded by the distinct reachable ids plus one. -/
def bfsFuel (g : Graph) : Nat :=
  (allNodes g).dedup.length + 2

/-- `GraphTraversal::bfs`. -/
def bfs (g : Graph) (startVertex : Nat) :
    Except Err (List Nat × List Int) :=
  if g.hasVertex startVertex then do
    let d ← wr? (List.replicate g.getNumVertices (-1)) startVertex 0
    bfsLoop g (bfsFuel g) [] d [startVertex] [startVertex]
  else .error .invalidArgument

end GraphTraversal

/-! ### Structural invariants of built graphs -/

section BuiltWf

/-- Adjacency lookup on a raw adjacency list (the body of
`getNeighbors`). -/
def lookupBucket (al : List (Nat × List (Nat × ℚ))) (x : Nat) :
    List (Nat × ℚ) :=
  match al.find? (fun p => p.1 = x) with
  | some p => p.2
  | none => []

lemma getNeighbors_eq_lookup (g : Graph) (v : Nat) :
    g.getNeighbors v = lookupBucket g.adjList v := rfl

/-- The in-bucket upsert performed by `addEdge`. -/
def bucketUpsert (nbrs : List (Nat × ℚ)) (to_ : Nat) (w : ℚ) :
    List (Nat × ℚ) :=
  if nbrs.any (fun p => p.1 = to_) then
    nbrs.map (fun p => if p.1 = to_ then (p.1, w) else p)
  else nbrs ++ [(to_, w)]

lemma lookupBucket_cons (k : Nat) (nbrs : List (Nat × ℚ))
    (rest : List (Nat × List (Nat × ℚ))) (x : Nat) :
    lookupBucket ((k, nbrs) :: rest) x =
      if k = x then nbrs else lookupBucket rest x := by
  simp only [lookupBucket, List.find?_cons]
  by_cases h : k = x
  · rw [if_pos h]
    simp [h]
  · rw [if_neg h]
    simp only [show (decide (k = x)) = false by simpa using h]

lemma lookupBucket_adjUpsert (al : List (Nat × List (Nat × ℚ)))
    (u v : Nat) (w : ℚ) (x : Nat) :
    lookupBucket (Graph.adjUpsert al u v w) x =
      if x = u then bucketUpsert (lookupBucket al u) v w
      else lookupBucket al x := by
  induction al with
  | nil =>
    show lookupBucket [(u, [(v, w)])] x = _
    rw [lookupBucket_cons]
    by_cases hx : x = u
    · subst hx
      rw [if_pos rfl, if_pos rfl]
      all_goals rfl
    · rw [if_neg (fun e => hx e.symm), if_neg hx]
      all_goals rfl
  | cons hd rest ih =>
    obtain ⟨k, nbrs⟩ := hd
    show lookupBucket (if k = u then _ else _) x = _
    by_cases hk : k = u
    · subst hk
      rw [if_pos rfl, lookupBucket_cons]
      by_cases hx : x = k
      · subst hx
        rw [if_pos rfl, if_pos rfl, lookupBucket_cons, if_pos rfl]
        all_goals rfl
      · rw [if_neg (fun e => hx e.symm), if_neg hx, lookupBucket_cons,
          if_neg (fun e => hx e.symm)]
        all_goals rfl
    · rw [if_neg hk, lookupBucket_cons]
      by_cases hx : k = x
      · subst hx
        rw [if_pos rfl, if_neg hk, lookupBucket_cons, if_pos rfl]
        all_goals rfl
      · rw [if_neg hx, ih, lookupBucket_cons, if_neg hk, lookupBucket_cons,
          if_neg hx]
        all_goals rfl

lemma bucketUpsert_mem {nbrs : List (Nat × ℚ)} {v : Nat} {w : ℚ}
    {q : Nat × ℚ} (h : q ∈ bucketUpsert nbrs v w) :
    q ∈ nbrs ∨ (q.1 = v ∧ q.2 = w) := by
  unfold bucketUpsert at h
  split at h
  · obtain ⟨p, hp, he⟩ := List.mem_map.mp h
    by_cases hpv : p.1 = v
    · rw [if_pos hpv] at he
      right
      rw [← he]
      exact ⟨hpv, rfl⟩
    · rw [if_neg hpv] at he
      exact Or.inl (he ▸ hp)
  · rcases List.mem_append.mp h with hl | hr
    · exact Or.inl hl
    · right
      simp only [List.mem_singleton] at hr
      rw [hr]
      exact ⟨rfl, rfl⟩

lemma bucketUpsert_targets_nodup {nbrs : List (Nat × ℚ)} {v : Nat} {w : ℚ}
    (h : (nbrs.map Prod.fst).Nodup) :
    ((bucketUpsert nbrs v w).map Prod.fst).Nodup := by
  unfold bucketUpsert
  split
  · have : (nbrs.map (fun p => if p.1 = v then (p.1, w) else p)).map Prod.fst =
        nbrs.map Prod.fst := by
      rw [List.map_map]
      apply List.map_congr_left
      intro p _
      by_cases hp : p.1 = v
      · simp [hp]
      · simp [hp]
    rw [this]
    exact h
  · next hnone =>
    rw [List.map_append]
    rw [List.nodup_append]
    refine ⟨h, List.nodup_singleton v, ?_⟩
    intro a ha hb
    simp only [List.map_cons, List.map_nil, List.mem_singleton] at hb
    subst hb
    obtain ⟨p, hp, he⟩ := List.mem_map.mp ha
    exact hnone (List.any_eq_true.mpr ⟨p, hp, by simp [he]⟩)

lemma upsert_pres (al : List (Nat × List (Nat × ℚ))) (a b : Nat) (w : ℚ)
    (P : Nat × ℚ → Prop)
    (hP : ∀ x q, q ∈ lookupBucket al x → P q) (hnew : P (b, w)) :
    ∀ x q, q ∈ lookupBucket (Graph.adjUpsert al a b w) x → P q := by
  intro x q hq
  rw [lookupBucket_adjUpsert] at hq
  split at hq
  · rcases bucketUpsert_mem hq with hold | ⟨h1, h2⟩
    · exact hP a q hold
    · have : q = (b, w) := Prod.ext h1 h2
      exact this ▸ hnew
  · exact hP x q hq

lemma upsert_nodup (al : List (Nat × List (Nat × ℚ))) (a b : Nat) (w : ℚ)
    (h : ∀ x, ((lookupBucket al x).map Prod.fst).Nodup) :
    ∀ x, ((lookupBucket (Graph.adjUpsert al a b w) x).map Prod.fst).Nodup := by
  intro x
  rw [lookupBucket_adjUpsert]
  split
  · exact bucketUpsert_targets_nodup (h a)
  · exact h x

lemma mem_vertices_addVertex (g : Graph) (u x : Nat)
    (h : x ∈ g.vertices) : x ∈ (g.addVertex u).vertices := by
  simp only [Graph.addVertex]
  split
  · exact h
  · exact List.mem_append.mpr (Or.inl h)

lemma self_mem_vertices_addVertex (g : Graph) (u : Nat) :
    u ∈ (g.addVertex u).vertices := by
  simp only [Graph.addVertex]
  split
  · assumption
  · exact List.mem_append.mpr (Or.inr (by simp))

/-- Well-formedness of every built graph: every adjacency entry targets a
recorded vertex and carries a non-negative weight, and no adjacency list
repeats a target. -/
theorem built_wf (g : Graph) (h : Built g) :
    ∀ v : Nat,
      (∀ q ∈ g.getNeighbors v, q.1 ∈ g.vertices ∧ 0 ≤ q.2) ∧
      ((g.getNeighbors v).map Prod.fst).Nodup := by
  induction h with
  | base d =>
    intro v
    refine ⟨fun q hq => absurd hq (by simp [Graph.getNeighbors,
      Graph.mkGraph]), by simp [Graph.getNeighbors, Graph.mkGraph]⟩
  | vertex u _ ih =>
    intro v
    obtain ⟨hmem, hnd⟩ := ih v
    exact ⟨fun q hq => ⟨mem_vertices_addVertex _ u q.1 (hmem q hq).1,
      (hmem q hq).2⟩, hnd⟩
  | @edge g0 u v w _ ih =>
    intro x
    by_cases hw : w < 0
    · obtain ⟨hmem, hnd⟩ := ih x
      simp only [Graph.addEdge, if_pos hw]
      exact ⟨hmem, hnd⟩
    · have hw' : 0 ≤ w := not_lt.mp hw
      have hver : ∀ y : Nat, y ∈ g0.vertices → y ∈ (g0.addEdge u v w).vertices := by
        intro y hy
        simp only [Graph.addEdge, if_neg hw]
        exact mem_vertices_addVertex _ v _ (mem_vertices_addVertex _ u _ hy)
      have hu : u ∈ (g0.addEdge u v w).vertices := by
        simp only [Graph.addEdge, if_neg hw]
        exact mem_vertices_addVertex _ v _ (self_mem_vertices_addVertex g0 u)
      have hv : v ∈ (g0.addEdge u v w).vertices := by
        simp only [Graph.addEdge, if_neg hw]
        exact self_mem_vertices_addVertex _ v
      have hadj : (g0.addEdge u v w).adjList =
          (if g0.directed then Graph.adjUpsert g0.adjList u v w
           else Graph.adjUpsert (Graph.adjUpsert g0.adjList u v w) v u w) := by
        simp only [Graph.addEdge, if_neg hw]
        rfl
      constructor
      · intro q hq
        rw [getNeighbors_eq_lookup, hadj] at hq
        split at hq
        · refine upsert_pres g0.adjList u v w
            (fun q => q.1 ∈ (g0.addEdge u v w).vertices ∧ 0 ≤ q.2)
            ?_ ⟨hv, hw'⟩ x q hq
          intro y q' hq'
          have := (ih y).1 q' hq'
          exact ⟨hver _ this.1, this.2⟩
        · refine upsert_pres _ v u w
            (fun q => q.1 ∈ (g0.addEdge u v w).vertices ∧ 0 ≤ q.2)
            ?_ ⟨hu, hw'⟩ x q hq
          intro y q' hq'
          refine upsert_pres g0.adjList u v w
            (fun q => q.1 ∈ (g0.addEdge u v w).vertices ∧ 0 ≤ q.2)
            ?_ ⟨hv, hw'⟩ y q' hq'
          intro z q'' hq''
          have := (ih z).1 q'' hq''
          exact ⟨hver _ this.1, this.2⟩
      · rw [getNeighbors_eq_lookup, hadj]
        split
        · exact upsert_nodup g0.adjList u v w (fun y => (ih y).2) x
        · exact upsert_nodup _ v u w
            (upsert_nodup g0.adjList u v w (fun y => (ih y).2)) x

end BuiltWf

/-! ### Dijkstra (`src/cpp_algorithms/dijkstra.cpp`)

`double` distances (with `std::numeric_limits<double>::infinity()` for
unreached) are embedded as `WithTop ℚ`.  The `std::priority_queue` over
`pair<double,int>` with `std::greater` pops the lexicographically smallest
pair, which is deterministic.  The state carries four
instrumentation-only fields (`stampArr`, `counter`, `lastPop`, `used`)
that record the execution history for the proofs; they are written but
never read by the algorithm and do not influence `dist`, `prev` or `pq`
(the returned result is only `(dist, prev)`).  The
`std::vector<bool> visited(n, false)` of the C++ code is allocated but
never read or written inside the loop, so it does not appear in the
state. -/

namespace Dijkstra

/-- Dijkstra's loop state: distances, predecessors, the priority queue —
plus write-only instrumentation. -/
structure DSt where
  dist : List (WithTop ℚ)
  prev : List Int
  pq : List (WithTop ℚ × Nat)
  stampArr : List Nat
  counter : Nat
  lastPop : WithTop ℚ
  used : List (Nat × Nat)

/-- Comparator of the C++ min-heap: lexicographic on (distance, vertex). -/
def pqLt (a b : WithTop ℚ × Nat) : Bool :=
  decide (a.1 < b.1) || (decide (a.1 = b.1) && decide (a.2 < b.2))

/-- `pq.top()`: the lexicographically smallest entry. -/
def findMin : List (WithTop ℚ × Nat) → Option (WithTop ℚ × Nat)
  | [] => none
  | e :: t => some (t.foldl (fun m b => if pqLt b m then b else m) e)

/-- One neighbour of the relaxation loop: throw on a negative weight,
then relax `(current, next, w)` if it improves, recording predecessor and
instrumentation and enqueueing the improved entry. -/
def relaxStep (g : Graph) (current : Nat) (st : DSt) (q : Nat × ℚ) :
    Except Err DSt :=
  if q.2 < 0 then .error .negativeWeight
  else do
    let dc ← idx? st.dist current
    let dx ← idx? st.dist q.1
    if dc + (q.2 : ℚ) < dx then do
      let dist' ← wr? st.dist q.1 (dc + (q.2 : ℚ))
      let prev' ← wr? st.prev q.1 (current : Int)
      .ok { st with
        dist := dist'
        prev := prev'
        pq := st.pq ++ [(dc + (q.2 : ℚ), q.1)]
        stampArr := st.stampArr.set q.1 st.counter
        counter := st.counter + 1
        used := (current, q.1) :: st.used }
    else .ok st

/-- The main loop, fuelled by pops: pop the smallest entry, discard it if
stale (`currentDist > distances[current]`), otherwise relax all
neighbours of `current` in adjacency order. -/
def dijkLoop (g : Graph) : Nat → DSt → Except Err DSt
  | 0, _ => .error .fuelExhausted
  | fuel + 1, st =>
    match findMin st.pq with
    | none => .ok st
    | some e => do
      let dcur ← idx? st.dist e.2
      if dcur < e.1 then
        dijkLoop g fuel { st with pq := st.pq.erase e, lastPop := e.1 }
      else do
        let st' ← (g.getNeighbors e.2).foldlM (relaxStep g e.2)
          { st with pq := st.pq.erase e, lastPop := e.1 }
        dijkLoop g fuel st'

/-- Total number of adjacency entries reachable from indices `0..n-1`;
each edge relaxes successfully at most once, bounding the pops. -/
def edgeCount (g : Graph) : Nat :=
  ((List.range g.getNumVertices).map (fun v => (g.getNeighbors v).length)).sum

/-- Pop budget for the loop. -/
def dijkFuel (g : Graph) : Nat := edgeCount g + 2

/-- `Dijkstra::shortestPath`: validate the start vertex, initialize
`distances[start] = 0`, run the loop, and return `(distances, previous)`. -/
def shortestPath (g : Graph) (startVertex : Nat) :
    Except Err (List (WithTop ℚ) × List Int) := do
  if g.hasVertex startVertex then do
    let dist0 ← wr? (List.replicate g.getNumVertices ⊤) startVertex 0
    let st ← dijkLoop g (dijkFuel g)
      { dist := dist0
        prev := List.replicate g.getNumVertices (-1)
        pq := [(0, startVertex)]
        stampArr := List.replicate g.getNumVertices 0
        counter := 1
        lastPop := 0
        used := [] }
    .ok (st.dist, st.prev)
  else .error .invalidArgument

/-- The predecessor-following loop of `getPath` (`for v = end; v != -1;
v = previous[v]`), producing the path end-first. -/
def followPrev (prev : List Int) : Nat → Nat → Except Err (List Nat)
  | 0, _ => .error .fuelExhausted
  | fuel + 1, v => do
    let pv ← idx? prev v
    if pv = -1 then .ok [v]
    else do
      let rest ← followPrev prev fuel pv.toNat
      .ok (v :: rest)

/-- `Dijkstra::getPath`: out-of-range end vertex fails InvalidArgument;
an unreached end vertex yields the empty path; otherwise follow the
predecessor links from `end` and reverse. -/
def getPath (res : List (WithTop ℚ) × List Int) (endVertex : Nat) :
    Except Err (List Nat) := do
  if h : endVertex < res.1.length then do
    let d ← idx? res.1 endVertex
    if d = ⊤ then .ok []
    else do
      let p ← followPrev res.2 (res.2.length + 1) endVertex
      .ok p.reverse
  else .error .invalidArgument

end Dijkstra

section C10

/-- An `Except` computation that never fails with `negativeWeight`. -/
def NoNegW {α : Type} (x : Except Err α) : Prop :=
  ∀ e, x = .error e → e ≠ .negativeWeight

lemma noNegW_ok {α : Type} (a : α) : NoNegW (Except.ok a : Except Err α) := by
  intro e he
  cases he

lemma noNegW_bind {α β : Type} {x : Except Err α} {f : α → Except Err β}
    (hx : NoNegW x) (hf : ∀ a, NoNegW (f a)) : NoNegW (x >>= f) := by
  cases x with
  | error e => exact fun e' he' => hx e' (by cases he'; rfl)
  | ok a => exact hf a

lemma noNegW_idx {α : Type} (l : List α) (i : Nat) : NoNegW (idx? l i) := by
  unfold idx?
  cases l.get? i with
  | none => exact fun e he => by cases he; simp
  | some x => exact noNegW_ok x

lemma noNegW_wr {α : Type} (l : List α) (i : Nat) (x : α) :
    NoNegW (wr? l i x) := by
  unfold wr?
  split
  · exact noNegW_ok _
  · exact fun e he => by cases he; simp

lemma noNegW_relaxStep (g : Graph) (current : Nat) (st : Dijkstra.DSt)
    (q : Nat × ℚ) (hq : 0 ≤ q.2) : NoNegW (Dijkstra.relaxStep g current st q) := by
  unfold Dijkstra.relaxStep
  rw [if_neg (not_lt.mpr hq)]
  refine noNegW_bind (noNegW_idx _ _) (fun dc => ?_)
  refine noNegW_bind (noNegW_idx _ _) (fun dx => ?_)
  split
  · refine noNegW_bind (noNegW_wr _ _ _) (fun d' => ?_)
    exact noNegW_bind (noNegW_wr _ _ _) (fun p' => noNegW_ok _)
  · exact noNegW_ok _

lemma noNegW_relaxFold (g : Graph) (h : Built g) (current : Nat) :
    ∀ (l : List (Nat × ℚ)) (st : Dijkstra.DSt),
    (∀ q ∈ l, q ∈ g.getNeighbors current) →
    NoNegW (l.foldlM (Dijkstra.relaxStep g current) st) := by
  intro l
  induction l with
  | nil => intro st _; exact noNegW_ok _
  | cons q t ih =>
    intro st hl
    rw [List.foldlM_cons]
    refine noNegW_bind ?_ (fun st' => ih st' (fun p hp => hl p (by simp [hp])))
    exact noNegW_relaxStep g current st q
      ((built_wf g h current).1 q (hl q (by simp))).2

lemma noNegW_dijkLoop (g : Graph) (h : Built g) :
    ∀ (fuel : Nat) (st : Dijkstra.DSt), NoNegW (Dijkstra.dijkLoop g fuel st) := by
  intro fuel
  induction fuel with
  | zero =>
    intro st e he
    simp only [Dijkstra.dijkLoop] at he
    cases he
    simp
  | succ f ih =>
    intro st
    show NoNegW (Dijkstra.dijkLoop g (f + 1) st)
    unfold Dijkstra.dijkLoop
    cases Dijkstra.findMin st.pq with
    | none => exact noNegW_ok _
    | some e =>
      refine noNegW_bind (noNegW_idx _ _) (fun dcur => ?_)
      split
      · exact ih _
      · exact noNegW_bind (noNegW_relaxFold g h e.2 _ _ (fun q hq => hq))
          (fun st' => ih st')

/-- **C10 (confirmed).**  `addEdge` rejects a negative weight before any
mutation, so every stored weight of a built graph is non-negative, and
`shortestPath` on such a graph can never fail with the NegativeWeight
error — that branch of the relaxation loop is unreachable. -/
theorem c10_no_negativeWeight (g : Graph) (s : Nat) (h : Built g) :
    (∀ v : Nat, ∀ q ∈ g.getNeighbors v, 0 ≤ q.2) ∧
    Dijkstra.shortestPath g s ≠ .error .negativeWeight := by
  refine ⟨fun v q hq => ((built_wf g h v).1 q hq).2, ?_⟩
  have hnn : NoNegW (Dijkstra.shortestPath g s) := by
    unfold Dijkstra.shortestPath
    split
    · refine noNegW_bind (noNegW_wr _ _ _) (fun d0 => ?_)
      exact noNegW_bind (noNegW_dijkLoop g h _ _)
        (fun st => noNegW_ok _)
    · intro e he
      cases he
      simp
  intro hcontra
  exact hnn .negativeWeight hcontra rfl

/-- **C10 witness**: the non-negativity and no-NegativeWeight facts on the
directed weighted graph `0→1(2), 1→2(3), 2→0(1), 0→2(10)`. -/
theorem c10_no_negativeWeight_witness :
    Built ((((Graph.mkGraph true).addEdge 0 1 2).addEdge 1 2 3 |>.addEdge 2 0 1).addEdge 0 2 10) ∧
    Dijkstra.shortestPath
      ((((Graph.mkGraph true).addEdge 0 1 2).addEdge 1 2 3 |>.addEdge 2 0 1).addEdge 0 2 10) 0 ≠
      .error .negativeWeight := by
  have hb : Built ((((Graph.mkGraph true).addEdge 0 1 2).addEdge 1 2 3 |>.addEdge 2 0 1).addEdge 0 2 10) :=
    Built.edge 0 2 10 (Built.edge 2 0 1 (Built.edge 1 2 3 (Built.edge 0 1 2 (Built.base true))))
  exact ⟨hb, (c10_no_negativeWeight _ 0 hb).2⟩

end C10

/-! ### Dijkstra loop invariants (towards C4 and C5) -/

section DijkstraInv

open Dijkstra

lemma getD_of_get? {α : Type} {l : List α} {i : Nat} {x d : α}
    (h : l.get? i = some x) : l.getD i d = x := by
  induction l generalizing i with
  | nil => cases h
  | cons a t ih =>
    cases i with
    | zero =>
      rw [List.getD_cons_zero]
      injection h
    | succ j =>
      rw [List.getD_cons_succ]
      exact ih (by simpa using h)

lemma getD_set_le {α : Type} [Preorder α] (l : List α) (i j : Nat) (x d : α)
    (h : x ≤ l.getD i d) : (l.set i x).getD j d ≤ l.getD j d := by
  by_cases hij : i = j
  · subst hij
    by_cases hi : i < l.length
    · rw [getD_set_self _ _ _ _ hi]
      exact h
    · rw [List.set_eq_of_length_le (le_of_not_lt hi)]
  · rw [getD_set_ne _ _ _ _ _ hij]

lemma pqLt_step_min (a b : WithTop ℚ × Nat) :
    (if pqLt b a then b else a).1 ≤ a.1 ∧
    (if pqLt b a then b else a).1 ≤ b.1 ∧
    ((if pqLt b a then b else a) = a ∨ (if pqLt b a then b else a) = b) := by
  by_cases h : pqLt b a = true
  · rw [if_pos h]
    refine ⟨?_, le_refl _, Or.inr rfl⟩
    rcases Bool.or_eq_true_iff.mp h with h1 | h2
    · exact le_of_lt (of_decide_eq_true h1)
    · exact le_of_eq (of_decide_eq_true (Bool.and_eq_true_iff.mp h2).1)
  · rw [if_neg h]
    refine ⟨le_refl _, ?_, Or.inl rfl⟩
    by_contra hab
    exact h (Bool.or_eq_true_iff.mpr (Or.inl (decide_eq_true (lt_of_not_le hab))))

lemma findMin_spec :
    ∀ (l : List (WithTop ℚ × Nat)) (m : WithTop ℚ × Nat),
    findMin l = some m → m ∈ l ∧ ∀ b ∈ l, m.1 ≤ b.1 := by
  have aux : ∀ (t : List (WithTop ℚ × Nat)) (a : WithTop ℚ × Nat),
      (t.foldl (fun m b => if pqLt b m then b else m) a) ∈ a :: t ∧
      ∀ b ∈ a :: t, (t.foldl (fun m b => if pqLt b m then b else m) a).1 ≤ b.1 := by
    intro t
    induction t with
    | nil => exact fun a => ⟨by simp, by simp⟩
    | cons b t ih =>
      intro a
      rw [List.foldl_cons]
      obtain ⟨hmem, hle⟩ := ih (if pqLt b a then b else a)
      obtain ⟨hsa, hsb, hsor⟩ := pqLt_step_min a b
      constructor
      · rcases List.mem_cons.mp hmem with h | h
        · rw [h]
          rcases hsor with h' | h'
          · rw [h']
            exact List.mem_cons.mpr (Or.inl rfl)
          · rw [h']
            exact List.mem_cons.mpr (Or.inr (List.mem_cons.mpr (Or.inl rfl)))
        · exact List.mem_cons.mpr (Or.inr (List.mem_cons.mpr (Or.inr h)))
      · intro c hc
        have hstep := hle _ (List.mem_cons.mpr (Or.inl rfl))
        rcases List.mem_cons.mp hc with h | h
        · subst h
          exact le_trans hstep hsa
        · rcases List.mem_cons.mp h with h' | h'
          · subst h'
            exact le_trans hstep hsb
          · exact hle c (List.mem_cons.mpr (Or.inr h'))
  intro l m h
  cases l with
  | nil => cases h
  | cons a t =>
    simp only [findMin, Option.some.injEq] at h
    subst h
    exact aux t a

/-- All `(source, target)` pairs relaxable by the loop. -/
def allEdgePairs (g : Graph) : List (Nat × Nat) :=
  (List.range g.getNumVertices).bind
    (fun u => (g.getNeighbors u).map (fun q => (u, q.1)))

lemma mem_allEdgePairs {g : Graph} {u x : Nat} {w : ℚ}
    (hu : u < g.getNumVertices) (hx : (x, w) ∈ g.getNeighbors u) :
    (u, x) ∈ allEdgePairs g := by
  unfold allEdgePairs
  rw [List.mem_bind]
  exact ⟨u, List.mem_range.mpr hu, List.mem_map.mpr ⟨(x, w), hx, rfl⟩⟩

lemma allEdgePairs_length (g : Graph) :
    (allEdgePairs g).length = edgeCount g := by
  unfold allEdgePairs edgeCount
  rw [List.length_bind]
  congr 1
  apply List.map_congr_left
  intro u _
  exact List.length_map _ _

lemma used_card_le {g : Graph} {used : List (Nat × Nat)}
    (hnd : used.Nodup) (hsub : ∀ pr ∈ used, pr ∈ allEdgePairs g) :
    used.length ≤ edgeCount g := by
  have h1 : used.length = used.toFinset.card :=
    (List.toFinset_card_of_nodup hnd).symm
  have h2 : used.toFinset ⊆ (allEdgePairs g).toFinset := by
    intro a ha
    rw [List.mem_toFinset] at *
    exact hsub a ha
  calc used.length = used.toFinset.card := h1
    _ ≤ (allEdgePairs g).toFinset.card := Finset.card_le_card h2
    _ ≤ (allEdgePairs g).length := (allEdgePairs g).toFinset_card_le
    _ = edgeCount g := allEdgePairs_length g

lemma ok_bind {α β : Type} (a : α) (f : α → Except Err β) :
    (Except.ok a >>= f) = f a := rfl

lemma nodup_fst_unique {l : List (Nat × ℚ)} (h : (l.map Prod.fst).Nodup)
    {a : Nat} {b c : ℚ} (hb : (a, b) ∈ l) (hc : (a, c) ∈ l) : b = c := by
  induction l with
  | nil => cases hb
  | cons p t ih =>
    rw [List.map_cons, List.nodup_cons] at h
    rcases List.mem_cons.mp hb with rfl | hb'
    · rcases List.mem_cons.mp hc with he | hc'
      · injection he with _ h2
        exact h2.symm
      · exact absurd (List.mem_map.mpr ⟨(a, c), hc', rfl⟩) h.1
    · rcases List.mem_cons.mp hc with rfl | hc'
      · exact absurd (List.mem_map.mpr ⟨(a, b), hb', rfl⟩) h.1
      · exact ih h.2 hb' hc'

/-- The loop invariant of `dijkLoop`.  The fields about the
instrumentation (`stampArr`, `counter`, `lastPop`, `used`) encode the
historic facts needed for path reconstruction and termination: stamps
order the predecessor writes, `lastPop` dominates the distance of every
vertex that has been relaxed from, and `used` records each successful
relaxation (each edge succeeds at most once). -/
structure DInv (g : Graph) (start : Nat) (st : Dijkstra.DSt) : Prop where
  distLen : st.dist.length = g.getNumVertices
  prevLen : st.prev.length = g.getNumVertices
  stampLen : st.stampArr.length = g.getNumVertices
  pqWf : ∀ e ∈ st.pq, e.2 < g.getNumVertices ∧ e.1 ≠ ⊤ ∧
    st.dist.getD e.2 ⊤ ≤ e.1 ∧ st.lastPop ≤ e.1
  relaxed : ∀ u, u < g.getNumVertices →
    st.dist.getD u ⊤ = ⊤ ∨
    (∃ e ∈ st.pq, e.2 = u ∧ e.1 = st.dist.getD u ⊤) ∨
    (∀ q ∈ g.getNeighbors u,
      st.dist.getD q.1 ⊤ ≤ st.dist.getD u ⊤ + (q.2 : ℚ))
  prevInv : ∀ v, v < g.getNumVertices →
    st.prev.getD v 0 = -1 ∨
    ∃ (u : Nat) (w : ℚ), st.prev.getD v 0 = (u : Int) ∧ u < g.getNumVertices ∧
      (v, w) ∈ g.getNeighbors u ∧ st.dist.getD u ⊤ ≠ ⊤ ∧
      st.dist.getD v ⊤ ≠ ⊤ ∧
      ((st.dist.getD v ⊤ = st.dist.getD u ⊤ + (w : ℚ) ∧
        st.stampArr.getD u 0 < st.stampArr.getD v 0) ∨
       (st.dist.getD u ⊤ + (w : ℚ) < st.dist.getD v ⊤ ∧
        ∃ e ∈ st.pq, e.2 = u ∧ e.1 = st.dist.getD u ⊤))
  stampLt : ∀ v, st.stampArr.getD v 0 < st.counter
  usedInv : ∀ pr ∈ st.used, pr.1 < g.getNumVertices ∧
    ∃ w, (pr.2, w) ∈ g.getNeighbors pr.1 ∧
      st.dist.getD pr.2 ⊤ ≤ st.dist.getD pr.1 ⊤ + (w : ℚ) ∧
      st.dist.getD pr.1 ⊤ ≤ st.lastPop ∧ st.dist.getD pr.1 ⊤ ≠ ⊤
  usedNodup : st.used.Nodup
  usedPairs : ∀ pr ∈ st.used, pr ∈ allEdgePairs g
  distStart : st.dist.getD start ⊤ = 0
  prevStart : st.prev.getD start 0 = -1
  distNonneg : ∀ v, (0 : WithTop ℚ) ≤ st.dist.getD v ⊤
  unreachedPrev : ∀ v, v < g.getNumVertices → v ≠ start →
    st.prev.getD v 0 = -1 → st.dist.getD v ⊤ = ⊤

/-- The invariant holding during the relaxation of `current`'s neighbour
list, of which `remaining` is the still-unprocessed suffix. -/
structure FoldInv (g : Graph) (start current : Nat)
    (remaining : List (Nat × ℚ)) (st : Dijkstra.DSt) : Prop where
  distLen : st.dist.length = g.getNumVertices
  prevLen : st.prev.length = g.getNumVertices
  stampLen : st.stampArr.length = g.getNumVertices
  currentLt : current < g.getNumVertices
  lastPopFin : st.lastPop ≠ ⊤
  distCur : st.dist.getD current ⊤ = st.lastPop
  pqWf : ∀ e ∈ st.pq, e.2 < g.getNumVertices ∧ e.1 ≠ ⊤ ∧
    st.dist.getD e.2 ⊤ ≤ e.1 ∧ st.lastPop ≤ e.1
  relaxedOther : ∀ u, u < g.getNumVertices → u ≠ current →
    st.dist.getD u ⊤ = ⊤ ∨
    (∃ e ∈ st.pq, e.2 = u ∧ e.1 = st.dist.getD u ⊤) ∨
    (∀ q ∈ g.getNeighbors u,
      st.dist.getD q.1 ⊤ ≤ st.dist.getD u ⊤ + (q.2 : ℚ))
  processedRel : ∃ processed, g.getNeighbors current = processed ++ remaining ∧
    ∀ q ∈ processed, st.dist.getD q.1 ⊤ ≤ st.dist.getD current ⊤ + (q.2 : ℚ)
  prevInvM : ∀ v, v < g.getNumVertices →
    st.prev.getD v 0 = -1 ∨
    ∃ (u : Nat) (w : ℚ), st.prev.getD v 0 = (u : Int) ∧ u < g.getNumVertices ∧
      (v, w) ∈ g.getNeighbors u ∧ st.dist.getD u ⊤ ≠ ⊤ ∧
      st.dist.getD v ⊤ ≠ ⊤ ∧
      ((st.dist.getD v ⊤ = st.dist.getD u ⊤ + (w : ℚ) ∧
        st.stampArr.getD u 0 < st.stampArr.getD v 0) ∨
       (st.dist.getD u ⊤ + (w : ℚ) < st.dist.getD v ⊤ ∧
        ((∃ e ∈ st.pq, e.2 = u ∧ e.1 = st.dist.getD u ⊤) ∨
         (u = current ∧ (v, w) ∈ remaining))))
  stampLt : ∀ v, st.stampArr.getD v 0 < st.counter
  usedInv : ∀ pr ∈ st.used, pr.1 < g.getNumVertices ∧
    ∃ w, (pr.2, w) ∈ g.getNeighbors pr.1 ∧
      st.dist.getD pr.2 ⊤ ≤ st.dist.getD pr.1 ⊤ + (w : ℚ) ∧
      st.dist.getD pr.1 ⊤ ≤ st.lastPop ∧ st.dist.getD pr.1 ⊤ ≠ ⊤
  usedNodup : st.used.Nodup
  usedPairs : ∀ pr ∈ st.used, pr ∈ allEdgePairs g
  distStart : st.dist.getD start ⊤ = 0
  prevStart : st.prev.getD start 0 = -1
  distNonneg : ∀ v, (0 : WithTop ℚ) ≤ st.dist.getD v ⊤
  unreachedPrev : ∀ v, v < g.getNumVertices → v ≠ start →
    st.prev.getD v 0 = -1 → st.dist.getD v ⊤ = ⊤

lemma idx?_getD {α : Type} {l : List α} {i : Nat} (h : i < l.length)
    (d : α) : idx? l i = .ok (l.getD i d) := by
  obtain ⟨x, hi, hg⟩ := idx?_of_lt h
  rw [hi, getD_of_get? (d := d) hg]

lemma foldInv_step (g : Graph) (hb : Built g) (hc : Contig g)
    (start current : Nat) (q : Nat × ℚ) (rem : List (Nat × ℚ))
    (st : Dijkstra.DSt) (hinv : FoldInv g start current (q :: rem) st) :
    ∃ st', Dijkstra.relaxStep g current st q = .ok st' ∧
      FoldInv g start current rem st' ∧
      st'.pq.length + st.used.length = st.pq.length + st'.used.length ∧
      st.used.length ≤ st'.used.length ∧
      st'.lastPop = st.lastPop := by
  obtain ⟨processed, hsplit, hprocessed⟩ := hinv.processedRel
  have hqmem : q ∈ g.getNeighbors current := by
    rw [hsplit]
    exact List.mem_append.mpr (Or.inr (List.mem_cons.mpr (Or.inl rfl)))
  have hxlt : q.1 < g.getNumVertices :=
    (hc q.1).mp ((built_wf g hb current).1 q hqmem).1
  have hwpos : 0 ≤ q.2 := ((built_wf g hb current).1 q hqmem).2
  have hnneg : ¬ q.2 < 0 := not_lt.mpr hwpos
  have hw0 : (0 : WithTop ℚ) ≤ ((q.2 : ℚ) : WithTop ℚ) := by
    exact_mod_cast hwpos
  have hdc : idx? st.dist current = .ok (st.dist.getD current ⊤) :=
    idx?_getD (by rw [hinv.distLen]; exact hinv.currentLt) ⊤
  have hdx : idx? st.dist q.1 = .ok (st.dist.getD q.1 ⊤) :=
    idx?_getD (by rw [hinv.distLen]; exact hxlt) ⊤
  have hdcne : st.dist.getD current ⊤ ≠ ⊤ := by
    rw [hinv.distCur]
    exact hinv.lastPopFin
  have hVne : st.dist.getD current ⊤ + (q.2 : ℚ) ≠ ⊤ :=
    WithTop.add_ne_top.mpr ⟨hdcne, WithTop.coe_ne_top⟩
  have hVnn : (0 : WithTop ℚ) ≤ st.dist.getD current ⊤ + (q.2 : ℚ) :=
    add_nonneg (hinv.distNonneg current) hw0
  by_cases hrel : st.dist.getD current ⊤ + (q.2 : ℚ) < st.dist.getD q.1 ⊤
  · -- successful relaxation
    have hxnec : q.1 ≠ current := by
      intro he
      rw [he] at hrel
      exact absurd hrel (not_lt.mpr (le_add_of_nonneg_right hw0))
    have hcne : current ≠ q.1 := fun e => hxnec e.symm
    have hxnes : q.1 ≠ start := by
      intro he
      rw [he, hinv.distStart] at hrel
      exact absurd hrel (not_lt.mpr hVnn)
    have hdlen : q.1 < st.dist.length := by rw [hinv.distLen]; exact hxlt
    have hplen : q.1 < st.prev.length := by rw [hinv.prevLen]; exact hxlt
    have hslen : q.1 < st.stampArr.length := by rw [hinv.stampLen]; exact hxlt
    have hds : (st.dist.set q.1 (st.dist.getD current ⊤ + (q.2 : ℚ))).getD q.1 ⊤ =
        st.dist.getD current ⊤ + (q.2 : ℚ) := getD_set_self _ _ _ _ hdlen
    have hdne : ∀ j, j ≠ q.1 →
        (st.dist.set q.1 (st.dist.getD current ⊤ + (q.2 : ℚ))).getD j ⊤ =
          st.dist.getD j ⊤ :=
      fun j hj => getD_set_ne _ _ _ _ _ (fun e => hj e.symm)
    have hdle : ∀ j,
        (st.dist.set q.1 (st.dist.getD current ⊤ + (q.2 : ℚ))).getD j ⊤ ≤
          st.dist.getD j ⊤ :=
      fun j => getD_set_le _ _ _ _ _ (le_of_lt hrel)
    have hdcur : (st.dist.set q.1 (st.dist.getD current ⊤ + (q.2 : ℚ))).getD current ⊤ =
        st.dist.getD current ⊤ := hdne current (fun e => hxnec e.symm)
    refine ⟨{ st with
        dist := st.dist.set q.1 (st.dist.getD current ⊤ + (q.2 : ℚ))
        prev := st.prev.set q.1 (current : Int)
        pq := st.pq ++ [(st.dist.getD current ⊤ + (q.2 : ℚ), q.1)]
        stampArr := st.stampArr.set q.1 st.counter
        counter := st.counter + 1
        used := (current, q.1) :: st.used }, ?_, ?_, ?_, ?_, ?_⟩
    · unfold Dijkstra.relaxStep
      rw [if_neg hnneg, hdc, ok_bind, hdx, ok_bind, if_pos hrel,
        wr?_of_lt hdlen, ok_bind, wr?_of_lt hplen, ok_bind]
    · refine {
        distLen := by simpa using hinv.distLen
        prevLen := by simpa using hinv.prevLen
        stampLen := by simpa using hinv.stampLen
        currentLt := hinv.currentLt
        lastPopFin := hinv.lastPopFin
        distCur := by
          show (st.dist.set q.1 (st.dist.getD current ⊤ + (q.2 : ℚ))).getD current ⊤ = st.lastPop
          rw [hdcur]
          exact hinv.distCur
        pqWf := ?_
        relaxedOther := ?_
        processedRel := ?_
        prevInvM := ?_
        stampLt := ?_
        usedInv := ?_
        usedNodup := ?_
        usedPairs := ?_
        distStart := by
          show (st.dist.set q.1 (st.dist.getD current ⊤ + (q.2 : ℚ))).getD start ⊤ = 0
          rw [hdne start (fun e => hxnes e.symm)]
          exact hinv.distStart
        prevStart := by
          show (st.prev.set q.1 (current : Int)).getD start 0 = -1
          rw [getD_set_ne _ _ _ _ _ hxnes]
          exact hinv.prevStart
        distNonneg := ?_
        unreachedPrev := ?_ }
      · -- pqWf
        intro e he
        rcases List.mem_append.mp he with hold | hnew
        · obtain ⟨h1, h2, h3, h4⟩ := hinv.pqWf e hold
          exact ⟨h1, h2, le_trans (hdle e.2) h3, h4⟩
        · simp only [List.mem_singleton] at hnew
          subst hnew
          refine ⟨hxlt, hVne, le_of_eq hds, ?_⟩
          rw [← hinv.distCur]
          exact le_add_of_nonneg_right hw0
      · -- relaxedOther
        intro u hu hune
        by_cases huq : u = q.1
        · subst huq
          exact Or.inr (Or.inl ⟨(st.dist.getD current ⊤ + (q.2 : ℚ), q.1),
            List.mem_append.mpr (Or.inr (by simp)), rfl, hds.symm⟩)
        · rcases hinv.relaxedOther u hu hune with htop | ⟨e, he, he2, he1⟩ | hall
          · exact Or.inl (by rw [hdne u huq]; exact htop)
          · exact Or.inr (Or.inl ⟨e, List.mem_append.mpr (Or.inl he), he2,
              by rw [hdne u huq]; exact he1⟩)
          · refine Or.inr (Or.inr (fun q' hq' => ?_))
            rw [hdne u huq]
            exact le_trans (hdle q'.1) (hall q' hq')
      · -- processedRel
        refine ⟨processed ++ [q], by rw [hsplit, List.append_assoc]; rfl, ?_⟩
        intro q' hq'
        rw [hdcur]
        rcases List.mem_append.mp hq' with hold | hq
        · exact le_trans (hdle q'.1) (hprocessed q' hold)
        · simp only [List.mem_singleton] at hq
          subst hq
          exact le_of_eq hds
      · -- prevInvM
        intro v hv
        by_cases hveq : v = q.1
        · subst hveq
          refine Or.inr ⟨current, q.2, getD_set_self _ _ _ _ hplen, hinv.currentLt,
            by rw [← Prod.mk.eta (p := q)] at hqmem; exact hqmem,
            by rw [hdcur]; exact hdcne, by rw [hds]; exact hVne, Or.inl ⟨?_, ?_⟩⟩
          · rw [hds, hdcur]
          · rw [getD_set_self _ _ _ _ hslen,
              getD_set_ne _ _ _ _ _ hxnec]
            exact hinv.stampLt current
        · have hpv : (st.prev.set q.1 (current : Int)).getD v 0 =
              st.prev.getD v 0 := getD_set_ne _ _ _ _ _ (fun e => hveq e.symm)
          rcases hinv.prevInvM v hv with hm1 | ⟨u, w', hpu, hun, hedge, hune, hvne, hcase⟩
          · exact Or.inl (by rw [hpv]; exact hm1)
          · refine Or.inr ⟨u, w', by rw [hpv]; exact hpu, hun, hedge, ?_, ?_, ?_⟩
            · by_cases huq : u = q.1
              · subst huq
                rw [hds]
                exact hVne
              · rw [hdne u huq]
                exact hune
            · rw [hdne v hveq]
              exact hvne
            · by_cases huq : u = q.1
              · subst huq
                -- dist[u] strictly decreased; switch to the pending-entry case
                refine Or.inr ⟨?_, Or.inl
                  ⟨(st.dist.getD current ⊤ + (q.2 : ℚ), q.1),
                    List.mem_append.mpr (Or.inr (by simp)), rfl, hds.symm⟩⟩
                rw [hds, hdne v hveq]
                rcases hcase with ⟨heq, _⟩ | ⟨hlt, _⟩
                · rw [heq]
                  exact WithTop.add_lt_add_right WithTop.coe_ne_top hrel
                · exact lt_of_le_of_lt (add_le_add_right (le_of_lt hrel) _) hlt
              · rw [hdne u huq, hdne v hveq]
                rcases hcase with ⟨heq, hst⟩ | ⟨hlt, hwit⟩
                · refine Or.inl ⟨heq, ?_⟩
                  rw [getD_set_ne _ _ _ _ _ (fun e => huq e.symm),
                    getD_set_ne _ _ _ _ _ (fun e => hveq e.symm)]
                  exact hst
                · refine Or.inr ⟨hlt, ?_⟩
                  rcases hwit with ⟨e, he, he2, he1⟩ | ⟨hucur, hpend⟩
                  · exact Or.inl ⟨e, List.mem_append.mpr (Or.inl he), he2, he1⟩
                  · rcases List.mem_cons.mp hpend with hq | hq
                    · exfalso
                      apply hveq
                      have : v = q.1 := by
                        have := congrArg Prod.fst hq
                        simpa using this
                      exact this
                    · exact Or.inr ⟨hucur, hq⟩
      · -- stampLt
        intro v
        by_cases hveq : v = q.1
        · subst hveq
          rw [getD_set_self _ _ _ _ hslen]
          exact Nat.lt_succ_self st.counter
        · rw [getD_set_ne _ _ _ _ _ (fun e => hveq e.symm)]
          exact Nat.lt_succ_of_lt (hinv.stampLt v)
      · -- usedInv
        intro pr hpr
        rcases List.mem_cons.mp hpr with hnew | hold
        · subst hnew
          refine ⟨hinv.currentLt, q.2,
            by rw [← Prod.mk.eta (p := q)] at hqmem; exact hqmem, ?_, ?_, ?_⟩
          · rw [hds, hdcur]
          · rw [hdcur, hinv.distCur]
          · rw [hdcur]
            exact hdcne
        · obtain ⟨hlt1, w', hmem', hble, hlp, hfin⟩ := hinv.usedInv pr hold
          have hprne : pr.1 ≠ q.1 := by
            intro he
            rw [he] at hlp
            rw [← hinv.distCur] at hlp
            exact absurd (lt_of_lt_of_le hrel (le_trans hlp
              (le_add_of_nonneg_right hw0))) (lt_irrefl _)
          refine ⟨hlt1, w', hmem', ?_, ?_, ?_⟩
          · rw [hdne pr.1 hprne]
            exact le_trans (hdle pr.2) hble
          · rw [hdne pr.1 hprne]
            exact hlp
          · rw [hdne pr.1 hprne]
            exact hfin
      · -- usedNodup
        rw [List.nodup_cons]
        refine ⟨?_, hinv.usedNodup⟩
        intro hmem
        obtain ⟨_, w', hmem', hble, _, _⟩ := hinv.usedInv (current, q.1) hmem
        have hweq : w' = q.2 :=
          nodup_fst_unique (built_wf g hb current).2 hmem'
            (by rw [← Prod.mk.eta (p := q)] at hqmem; exact hqmem)
        rw [hweq] at hble
        exact absurd hrel (not_lt.mpr hble)
      · -- usedPairs
        intro pr hpr
        rcases List.mem_cons.mp hpr with hnew | hold
        · subst hnew
          exact mem_allEdgePairs hinv.currentLt hqmem
        · exact hinv.usedPairs pr hold
      · -- distNonneg
        intro v
        by_cases hveq : v = q.1
        · subst hveq
          rw [hds]
          exact hVnn
        · rw [hdne v hveq]
          exact hinv.distNonneg v
      · -- unreachedPrev
        intro v hv hvs hpv
        by_cases hveq : v = q.1
        · subst hveq
          rw [getD_set_self _ _ _ _ hplen] at hpv
          exact absurd hpv (by omega)
        · rw [getD_set_ne _ _ _ _ _ (fun e => hveq e.symm)] at hpv
          rw [hdne v hveq]
          exact hinv.unreachedPrev v hv hvs hpv
    · simp only [List.length_append, List.length_cons, List.length_nil]
      omega
    · simp
    · rfl
  · -- no improvement: the state is unchanged
    refine ⟨st, ?_, ?_, by omega, le_refl _, rfl⟩
    · unfold Dijkstra.relaxStep
      rw [if_neg hnneg, hdc, ok_bind, hdx, ok_bind, if_neg hrel]
    · refine {
        distLen := hinv.distLen
        prevLen := hinv.prevLen
        stampLen := hinv.stampLen
        currentLt := hinv.currentLt
        lastPopFin := hinv.lastPopFin
        distCur := hinv.distCur
        pqWf := hinv.pqWf
        relaxedOther := hinv.relaxedOther
        processedRel := ⟨processed ++ [q],
          by rw [hsplit, List.append_assoc]; rfl, ?_⟩
        prevInvM := ?_
        stampLt := hinv.stampLt
        usedInv := hinv.usedInv
        usedNodup := hinv.usedNodup
        usedPairs := hinv.usedPairs
        distStart := hinv.distStart
        prevStart := hinv.prevStart
        distNonneg := hinv.distNonneg
        unreachedPrev := hinv.unreachedPrev }
      · intro q' hq'
        rcases List.mem_append.mp hq' with hold | hq
        · exact hprocessed q' hold
        · simp only [List.mem_singleton] at hq
          subst hq
          exact not_lt.mp hrel
      · intro v hv
        rcases hinv.prevInvM v hv with hm1 | ⟨u, w', hpu, hun, hedge, hune, hvne, hcase⟩
        · exact Or.inl hm1
        · refine Or.inr ⟨u, w', hpu, hun, hedge, hune, hvne, ?_⟩
          rcases hcase with hc1 | ⟨hlt, hwit⟩
          · exact Or.inl hc1
          · refine Or.inr ⟨hlt, ?_⟩
            rcases hwit with hentry | ⟨hucur, hpend⟩
            · exact Or.inl hentry
            · rcases List.mem_cons.mp hpend with hq | hq
              · exfalso
                subst hucur
                have hv1 : v = q.1 := by
                  have := congrArg Prod.fst hq
                  simpa using this
                have hw1 : w' = q.2 := by
                  have := congrArg Prod.snd hq
                  simpa using this
                rw [hv1, hw1] at hlt
                exact absurd hlt hrel
              · exact Or.inr ⟨hucur, hq⟩

lemma foldInv_fold (g : Graph) (hb : Built g) (hc : Contig g)
    (start current : Nat) :
    ∀ (rest : List (Nat × ℚ)) (st : Dijkstra.DSt),
    FoldInv g start current rest st →
    ∃ st', List.foldlM (Dijkstra.relaxStep g current) st rest = .ok st' ∧
      FoldInv g start current [] st' ∧
      st'.pq.length + st.used.length = st.pq.length + st'.used.length ∧
      st.used.length ≤ st'.used.length ∧
      st'.lastPop = st.lastPop
  | [], st, hinv => ⟨st, rfl, hinv, rfl, le_refl _, rfl⟩
  | q :: rem, st, hinv => by
    obtain ⟨st1, hstep, hinv1, hcnt1, hmono1, hlp1⟩ :=
      foldInv_step g hb hc start current q rem st hinv
    obtain ⟨st2, hfold, hinv2, hcnt2, hmono2, hlp2⟩ :=
      foldInv_fold g hb hc start current rem st1 hinv1
    refine ⟨st2, ?_, hinv2, by omega, le_trans hmono1 hmono2,
      hlp2.trans hlp1⟩
    rw [List.foldlM_cons, hstep, ok_bind]
    exact hfold

lemma foldInv_done (g : Graph) (start current : Nat) (st : Dijkstra.DSt)
    (hinv : FoldInv g start current [] st) : DInv g start st := by
  obtain ⟨processed, hsplit, hprocessed⟩ := hinv.processedRel
  rw [List.append_nil] at hsplit
  refine {
    distLen := hinv.distLen
    prevLen := hinv.prevLen
    stampLen := hinv.stampLen
    pqWf := hinv.pqWf
    relaxed := ?_
    prevInv := ?_
    stampLt := hinv.stampLt
    usedInv := hinv.usedInv
    usedNodup := hinv.usedNodup
    usedPairs := hinv.usedPairs
    distStart := hinv.distStart
    prevStart := hinv.prevStart
    distNonneg := hinv.distNonneg
    unreachedPrev := hinv.unreachedPrev }
  · intro u hu
    by_cases huc : u = current
    · subst huc
      refine Or.inr (Or.inr ?_)
      intro q hq
      rw [hsplit] at hq
      exact hprocessed q hq
    · exact hinv.relaxedOther u hu huc
  · intro v hv
    rcases hinv.prevInvM v hv with h1 | ⟨u, w', hpu, hun, hedge, hune, hvne, hcase⟩
    · exact Or.inl h1
    · refine Or.inr ⟨u, w', hpu, hun, hedge, hune, hvne, ?_⟩
      rcases hcase with h | ⟨hlt, hwit⟩
      · exact Or.inl h
      · refine Or.inr ⟨hlt, ?_⟩
        rcases hwit with h | ⟨_, hmem⟩
        · exact h
        · cases hmem

lemma findMin_none {l : List (WithTop ℚ × Nat)}
    (h : findMin l = none) : l = [] := by
  cases l with
  | nil => rfl
  | cons a t => unfold findMin at h; cases h

lemma dinv_used_le {g : Graph} {start : Nat} {st : Dijkstra.DSt}
    (hinv : DInv g start st) : st.used.length ≤ edgeCount g :=
  used_card_le hinv.usedNodup hinv.usedPairs

lemma dijkLoop_none (g : Graph) (fuel : Nat) (st : Dijkstra.DSt)
    (h : findMin st.pq = none) :
    Dijkstra.dijkLoop g (fuel + 1) st = .ok st := by
  unfold Dijkstra.dijkLoop
  rw [h]

lemma dijkLoop_some (g : Graph) (fuel : Nat) (st : Dijkstra.DSt)
    (e : WithTop ℚ × Nat) (h : findMin st.pq = some e) :
    Dijkstra.dijkLoop g (fuel + 1) st = (do
      let dcur ← idx? st.dist e.2
      if dcur < e.1 then
        Dijkstra.dijkLoop g fuel { st with pq := st.pq.erase e, lastPop := e.1 }
      else do
        let st' ← (g.getNeighbors e.2).foldlM (Dijkstra.relaxStep g e.2)
          { st with pq := st.pq.erase e, lastPop := e.1 }
        Dijkstra.dijkLoop g fuel st') := by
  conv_lhs => rw [Dijkstra.dijkLoop]
  rw [h]

lemma dijkLoop_master (g : Graph) (hb : Built g) (hc : Contig g) (start : Nat) :
    ∀ (fuel : Nat) (st : Dijkstra.DSt), DInv g start st →
    st.pq.length + (edgeCount g - st.used.length) < fuel →
    ∃ st', Dijkstra.dijkLoop g fuel st = .ok st' ∧ DInv g start st' ∧
      st'.pq = []
  | 0, st, _, hfuel => absurd hfuel (by omega)
  | fuel + 1, st, hinv, hfuel => by
    cases hfm : findMin st.pq with
    | none =>
      exact ⟨st, dijkLoop_none g fuel st hfm, hinv, findMin_none hfm⟩
    | some e =>
      obtain ⟨hemem, hemin⟩ := findMin_spec st.pq e hfm
      obtain ⟨he2, he1ne, hele, help⟩ := hinv.pqWf e hemem
      have hdcur : idx? st.dist e.2 = .ok (st.dist.getD e.2 ⊤) :=
        idx?_getD (by rw [hinv.distLen]; exact he2) ⊤
      have hpos : 0 < st.pq.length :=
        List.length_pos.mpr (List.ne_nil_of_mem hemem)
      have herase : (st.pq.erase e).length + 1 = st.pq.length := by
        rw [List.length_erase_of_mem hemem]
        omega
      have hstu : st.used.length ≤ edgeCount g := dinv_used_le hinv
      by_cases hstale : st.dist.getD e.2 ⊤ < e.1
      · -- stale entry: discard it and continue
        have hmid : DInv g start
            { st with pq := st.pq.erase e, lastPop := e.1 } := by
          refine {
            distLen := hinv.distLen
            prevLen := hinv.prevLen
            stampLen := hinv.stampLen
            pqWf := ?_
            relaxed := ?_
            prevInv := ?_
            stampLt := hinv.stampLt
            usedInv := ?_
            usedNodup := hinv.usedNodup
            usedPairs := hinv.usedPairs
            distStart := hinv.distStart
            prevStart := hinv.prevStart
            distNonneg := hinv.distNonneg
            unreachedPrev := hinv.unreachedPrev }
          · intro f hf
            have hf' : f ∈ st.pq := List.mem_of_mem_erase hf
            obtain ⟨h1, h2, h3, _⟩ := hinv.pqWf f hf'
            exact ⟨h1, h2, h3, hemin f hf'⟩
          · intro u hu
            rcases hinv.relaxed u hu with htop | ⟨f, hf, hf2, hf1⟩ | hall
            · exact Or.inl htop
            · have hne : f ≠ e := by
                rintro rfl
                rw [hf2, ← hf1] at hstale
                exact lt_irrefl _ hstale
              exact Or.inr (Or.inl ⟨f, (List.mem_erase_of_ne hne).mpr hf,
                hf2, hf1⟩)
            · exact Or.inr (Or.inr hall)
          · intro v hv
            rcases hinv.prevInv v hv with h1 |
              ⟨u, w', hpu, hun, hedge, hune, hvne, hcase⟩
            · exact Or.inl h1
            · refine Or.inr ⟨u, w', hpu, hun, hedge, hune, hvne, ?_⟩
              rcases hcase with h | ⟨hlt, f, hf, hf2, hf1⟩
              · exact Or.inl h
              · have hne : f ≠ e := by
                  rintro rfl
                  rw [hf2, ← hf1] at hstale
                  exact lt_irrefl _ hstale
                exact Or.inr ⟨hlt, f, (List.mem_erase_of_ne hne).mpr hf,
                  hf2, hf1⟩
          · intro pr hpr
            obtain ⟨h1, w', hm, hble, hlp, hfin⟩ := hinv.usedInv pr hpr
            exact ⟨h1, w', hm, hble, le_trans hlp help, hfin⟩
        obtain ⟨st', hrun, hinv', hpq'⟩ := dijkLoop_master g hb hc start fuel
          { st with pq := st.pq.erase e, lastPop := e.1 } hmid (by
            dsimp only
            omega)
        refine ⟨st', ?_, hinv', hpq'⟩
        rw [dijkLoop_some g fuel st e hfm, hdcur, ok_bind, if_pos hstale]
        exact hrun
      · -- genuine pop: relax all neighbours of e.2
        have hdeq : st.dist.getD e.2 ⊤ = e.1 :=
          le_antisymm hele (not_lt.mp hstale)
        have hmid : FoldInv g start e.2 (g.getNeighbors e.2)
            { st with pq := st.pq.erase e, lastPop := e.1 } := by
          refine {
            distLen := hinv.distLen
            prevLen := hinv.prevLen
            stampLen := hinv.stampLen
            currentLt := he2
            lastPopFin := he1ne
            distCur := hdeq
            pqWf := ?_
            relaxedOther := ?_
            processedRel := ⟨[], rfl, fun q hq => absurd hq (List.not_mem_nil q)⟩
            prevInvM := ?_
            stampLt := hinv.stampLt
            usedInv := ?_
            usedNodup := hinv.usedNodup
            usedPairs := hinv.usedPairs
            distStart := hinv.distStart
            prevStart := hinv.prevStart
            distNonneg := hinv.distNonneg
            unreachedPrev := hinv.unreachedPrev }
          · intro f hf
            have hf' : f ∈ st.pq := List.mem_of_mem_erase hf
            obtain ⟨h1, h2, h3, _⟩ := hinv.pqWf f hf'
            exact ⟨h1, h2, h3, hemin f hf'⟩
          · intro u hu hune
            rcases hinv.relaxed u hu with htop | ⟨f, hf, hf2, hf1⟩ | hall
            · exact Or.inl htop
            · have hne : f ≠ e := by
                rintro rfl
                exact hune hf2.symm
              exact Or.inr (Or.inl ⟨f, (List.mem_erase_of_ne hne).mpr hf,
                hf2, hf1⟩)
            · exact Or.inr (Or.inr hall)
          · intro v hv
            rcases hinv.prevInv v hv with h1 |
              ⟨u, w', hpu, hun, hedge, hune, hvne, hcase⟩
            · exact Or.inl h1
            · refine Or.inr ⟨u, w', hpu, hun, hedge, hune, hvne, ?_⟩
              rcases hcase with h | ⟨hlt, f, hf, hf2, hf1⟩
              · exact Or.inl h
              · refine Or.inr ⟨hlt, ?_⟩
                by_cases hfe : f = e
                · subst hfe
                  refine Or.inr ⟨hf2.symm, ?_⟩
                  rw [hf2]
                  exact hedge
                · exact Or.inl ⟨f, (List.mem_erase_of_ne hfe).mpr hf, hf2, hf1⟩
          · intro pr hpr
            obtain ⟨h1, w', hm, hble, hlp, hfin⟩ := hinv.usedInv pr hpr
            exact ⟨h1, w', hm, hble, le_trans hlp help, hfin⟩
        obtain ⟨st1, hfold, hdone, hcnt, hmono, hlp⟩ :=
          foldInv_fold g hb hc start e.2 (g.getNeighbors e.2)
            { st with pq := st.pq.erase e, lastPop := e.1 } hmid
        have hinv1 : DInv g start st1 := foldInv_done g start e.2 st1 hdone
        have hused1 : st1.used.length ≤ edgeCount g := dinv_used_le hinv1
        obtain ⟨st', hrun, hinv', hpq'⟩ := dijkLoop_master g hb hc start fuel
          st1 hinv1 (by
            dsimp only at hcnt hmono
            omega)
        refine ⟨st', ?_, hinv', hpq'⟩
        rw [dijkLoop_some g fuel st e hfm, hdcur, ok_bind, if_neg hstale,
          hfold, ok_bind]
        exact hrun

/-- One directed edge of the adjacency structure. -/
def EdgeRel (g : Graph) (a b : Nat) : Prop :=
  ∃ w : ℚ, (b, w) ∈ g.getNeighbors a

/-- `e` is reachable from `s` along stored edges. -/
def Reach (g : Graph) (s e : Nat) : Prop :=
  Relation.ReflTransGen (EdgeRel g) s e

lemma reach_lt (g : Graph) (hb : Built g) (hc : Contig g) {s e : Nat}
    (hs : s < g.getNumVertices) (hr : Reach g s e) :
    e < g.getNumVertices := by
  induction hr with
  | refl => exact hs
  | tail hab hbc ih =>
    obtain ⟨w, hm⟩ := hbc
    exact (hc _).mp ((built_wf g hb _).1 _ hm).1

/-- The weight of the unique stored edge `a → b` (`⊤` if absent). -/
def edgeW (g : Graph) (a b : Nat) : WithTop ℚ :=
  ((g.getNeighbors a).find? (fun q => q.1 == b)).elim ⊤
    (fun q => ((q.2 : ℚ) : WithTop ℚ))

/-- Sum of the stored edge weights along consecutive pairs of a path. -/
def pathWeight (g : Graph) : List Nat → WithTop ℚ
  | a :: b :: t => edgeW g a b + pathWeight g (b :: t)
  | _ => 0

lemma find?_eq_of_nodup :
    ∀ (l : List (Nat × ℚ)) (b : Nat) (w : ℚ), (l.map Prod.fst).Nodup →
    (b, w) ∈ l → l.find? (fun q => q.1 == b) = some (b, w)
  | [], _, _, _, h => absurd h (List.not_mem_nil _)
  | p :: t, b, w, hnd, hmem => by
    rw [List.map_cons, List.nodup_cons] at hnd
    rcases List.mem_cons.mp hmem with heq | hm
    · rw [← heq]
      exact List.find?_cons_of_pos _ (by simp)
    · have hfalse : (p.1 == b) = false := by
        simp only [beq_eq_false_iff_ne, ne_eq]
        rintro rfl
        exact hnd.1 (List.mem_map.mpr ⟨(p.1, w), hm, rfl⟩)
      have hstep : List.find? (fun q : Nat × ℚ => q.1 == b) (p :: t) =
          List.find? (fun q : Nat × ℚ => q.1 == b) t := by
        simp only [List.find?, hfalse]
      rw [hstep]
      exact find?_eq_of_nodup t b w hnd.2 hm

lemma edgeW_eq {g : Graph} {a b : Nat} {w : ℚ}
    (hnd : ((g.getNeighbors a).map Prod.fst).Nodup)
    (hm : (b, w) ∈ g.getNeighbors a) :
    edgeW g a b = ((w : ℚ) : WithTop ℚ) := by
  unfold edgeW
  rw [find?_eq_of_nodup _ b w hnd hm]
  rfl

lemma pathWeight_append_one (g : Graph) :
    ∀ (xs : List Nat) (a b : Nat), xs.getLast? = some a →
    pathWeight g (xs ++ [b]) = pathWeight g xs + edgeW g a b
  | [], _, _, h => by cases h
  | [x], a, b, h => by
    have hxa : x = a := by
      simpa using h
    subst hxa
    show edgeW g x b + pathWeight g [b] = pathWeight g [x] + edgeW g x b
    show edgeW g x b + 0 = 0 + edgeW g x b
    rw [zero_add, add_zero]
  | x :: y :: t, a, b, h => by
    have hyt : (y :: t).getLast? = some a := by
      rw [List.getLast?_cons_cons] at h
      exact h
    show edgeW g x y + pathWeight g ((y :: t) ++ [b]) =
      edgeW g x y + pathWeight g (y :: t) + edgeW g a b
    rw [pathWeight_append_one g (y :: t) a b hyt, add_assoc]

lemma length_le_of_nodup_lt {l : List Nat} {n : Nat} (hnd : l.Nodup)
    (hlt : ∀ x ∈ l, x < n) : l.length ≤ n := by
  have h1 : l.length = l.toFinset.card := (List.toFinset_card_of_nodup hnd).symm
  have h2 : l.toFinset ⊆ Finset.range n := by
    intro a ha
    rw [List.mem_toFinset] at ha
    exact Finset.mem_range.mpr (hlt a ha)
  calc l.length = l.toFinset.card := h1
    _ ≤ (Finset.range n).card := Finset.card_le_card h2
    _ = n := Finset.card_range n

lemma dist_ne_top_of_reach (g : Graph) (hb : Built g) (hc : Contig g)
    (start : Nat) (st : Dijkstra.DSt) (hinv : DInv g start st)
    (hpq : st.pq = []) (hs : start < g.getNumVertices) :
    ∀ e, Reach g start e → st.dist.getD e ⊤ ≠ ⊤ := by
  intro e hr
  induction hr with
  | refl =>
    rw [hinv.distStart]
    simp
  | @tail b c hab hbc ih =>
    obtain ⟨w, hm⟩ := hbc
    have hbn : b < g.getNumVertices := reach_lt g hb hc hs hab
    rcases hinv.relaxed b hbn with htop | ⟨f, hf, _, _⟩ | hall
    · exact absurd htop ih
    · rw [hpq] at hf
      cases hf
    · have hle := hall (c, w) hm
      intro htop
      rw [htop] at hle
      rcases WithTop.add_eq_top.mp (top_le_iff.mp hle) with h | h
      · exact ih h
      · exact WithTop.coe_ne_top h

lemma followPrev_build (g : Graph) (hb : Built g) (start : Nat)
    (st : Dijkstra.DSt) (hinv : DInv g start st) (hpq : st.pq = []) :
    ∀ (k : Nat) (v : Nat), v < g.getNumVertices →
    st.stampArr.getD v 0 < k → st.dist.getD v ⊤ ≠ ⊤ →
    ∃ l : List Nat,
      (∀ fuel, l.length ≤ fuel → Dijkstra.followPrev st.prev fuel v = .ok l) ∧
      l.head? = some v ∧ l.getLast? = some start ∧
      (∀ x ∈ l, x < g.getNumVertices) ∧
      List.Chain' (fun a b => st.stampArr.getD b 0 < st.stampArr.getD a 0) l ∧
      List.Chain' (fun a b => EdgeRel g b a) l ∧
      pathWeight g l.reverse = st.dist.getD v ⊤
  | 0, v, _, hk, _ => absurd hk (by omega)
  | k + 1, v, hv, hk, hfin => by
    have hpl : v < st.prev.length := by rw [hinv.prevLen]; exact hv
    have hpidx : idx? st.prev v = .ok (st.prev.getD v 0) := idx?_getD hpl 0
    by_cases hpv : st.prev.getD v 0 = -1
    · -- chain root: a vertex with no predecessor and finite distance is start
      have hvs : v = start := by
        by_contra hne
        exact hfin (hinv.unreachedPrev v hv hne hpv)
      refine ⟨[v], ?_, rfl, by rw [hvs]; rfl, ?_, List.chain'_singleton v,
        List.chain'_singleton v, ?_⟩
      · intro fuel hf
        cases fuel with
        | zero => exact absurd hf (by simp)
        | succ f =>
          unfold Dijkstra.followPrev
          rw [hpidx, ok_bind, if_pos hpv]
      · intro x hx
        rw [List.mem_singleton.mp hx]
        exact hv
      · show pathWeight g [v] = st.dist.getD v ⊤
        rw [hvs, hinv.distStart]
        rfl
    · obtain ⟨u, w, hpu, hun, hedge, hune, hvne, hcase⟩ :=
        (hinv.prevInv v hv).resolve_left hpv
      have hcase1 : st.dist.getD v ⊤ = st.dist.getD u ⊤ + (w : ℚ) ∧
          st.stampArr.getD u 0 < st.stampArr.getD v 0 := by
        rcases hcase with h | ⟨_, f, hf, _⟩
        · exact h
        · rw [hpq] at hf
          cases hf
      obtain ⟨heqw, hstlt⟩ := hcase1
      have hku : st.stampArr.getD u 0 < k := by omega
      obtain ⟨l', hrunl, hheadl, hlastl, hltl, hchainS, hchainE, hwl⟩ :=
        followPrev_build g hb start st hinv hpq k u hun hku hune
      have hl'ne : l' ≠ [] := by
        intro h
        rw [h] at hheadl
        cases hheadl
      refine ⟨v :: l', ?_, rfl, ?_, ?_, ?_, ?_, ?_⟩
      · intro fuel hf
        cases fuel with
        | zero => exact absurd hf (by simp)
        | succ f =>
          unfold Dijkstra.followPrev
          rw [hpidx, ok_bind, if_neg hpv]
          have htn : (st.prev.getD v 0).toNat = u := by
            rw [hpu]
            simp
          rw [htn, hrunl f (by simp only [List.length_cons] at hf; omega),
            ok_bind]
      · cases l' with
        | nil => exact absurd rfl hl'ne
        | cons a t =>
          rw [List.getLast?_cons_cons]
          exact hlastl
      · intro x hx
        rcases List.mem_cons.mp hx with rfl | hm
        · exact hv
        · exact hltl x hm
      · refine List.chain'_cons'.mpr ⟨?_, hchainS⟩
        intro y hy
        rw [hheadl] at hy
        rw [← Option.mem_some_iff.mp hy]
        exact hstlt
      · refine List.chain'_cons'.mpr ⟨?_, hchainE⟩
        intro y hy
        rw [hheadl] at hy
        rw [← Option.mem_some_iff.mp hy]
        exact ⟨w, hedge⟩
      · show pathWeight g (v :: l').reverse = st.dist.getD v ⊤
        rw [List.reverse_cons]
        have hlast : l'.reverse.getLast? = some u := by
          rw [List.getLast?_reverse]
          exact hheadl
        rw [pathWeight_append_one g l'.reverse u v hlast, hwl,
          edgeW_eq (built_wf g hb u).2 hedge, heqw]

lemma shortestPath_spec (g : Graph) (hb : Built g) (hc : Contig g)
    (start : Nat) (hs : g.hasVertex start = true) :
    ∃ st, Dijkstra.shortestPath g start = .ok (st.dist, st.prev) ∧
      DInv g start st ∧ st.pq = [] := by
  have hsn : start < g.getNumVertices := (hc start).mp (by
    simpa [Graph.hasVertex] using hs)
  have hlen : start <
      (List.replicate g.getNumVertices (⊤ : WithTop ℚ)).length := by
    rw [List.length_replicate]
    exact hsn
  have hrepl : ∀ v,
      (List.replicate g.getNumVertices (⊤ : WithTop ℚ)).getD v ⊤ = ⊤ := by
    intro v
    rw [getD_replicate]
    split <;> rfl
  have hdne : ∀ v, v ≠ start →
      ((List.replicate g.getNumVertices (⊤ : WithTop ℚ)).set start
        0).getD v ⊤ = ⊤ := by
    intro v hvne
    rw [getD_set_ne _ _ _ _ _ (fun e => hvne e.symm)]
    exact hrepl v
  have hdself :
      ((List.replicate g.getNumVertices (⊤ : WithTop ℚ)).set start
        0).getD start ⊤ = 0 := getD_set_self _ _ _ _ hlen
  have hprepl : ∀ v, v < g.getNumVertices →
      (List.replicate g.getNumVertices (-1 : Int)).getD v 0 = -1 := by
    intro v hv
    rw [getD_replicate, if_pos hv]
  have hinit : DInv g start
      { dist := (List.replicate g.getNumVertices (⊤ : WithTop ℚ)).set start 0
        prev := List.replicate g.getNumVertices (-1)
        pq := [(0, start)]
        stampArr := List.replicate g.getNumVertices 0
        counter := 1
        lastPop := 0
        used := [] } := by
    refine {
      distLen := by simp
      prevLen := by simp
      stampLen := by simp
      pqWf := ?_
      relaxed := ?_
      prevInv := fun v hv => Or.inl (hprepl v hv)
      stampLt := ?_
      usedInv := fun pr hpr => absurd hpr (List.not_mem_nil pr)
      usedNodup := List.nodup_nil
      usedPairs := fun pr hpr => absurd hpr (List.not_mem_nil pr)
      distStart := hdself
      prevStart := hprepl start hsn
      distNonneg := ?_
      unreachedPrev := ?_ }
    · intro e he
      rw [List.mem_singleton.mp he]
      refine ⟨hsn, by simp, ?_, le_refl _⟩
      rw [hdself]
    · intro u hu
      by_cases huq : u = start
      · subst huq
        exact Or.inr (Or.inl ⟨(0, u), List.mem_singleton.mpr rfl, rfl,
          hdself.symm⟩)
      · exact Or.inl (by rw [hdne u huq])
    · intro v
      show (List.replicate g.getNumVertices 0).getD v 0 < 1
      rw [getD_replicate]
      split <;> omega
    · intro v
      by_cases hvq : v = start
      · subst hvq
        rw [hdself]
      · rw [hdne v hvq]
        exact le_top
    · intro v hv hvs _
      exact hdne v hvs
  obtain ⟨stf, hrun, hinvf, hpqf⟩ := dijkLoop_master g hb hc start
    (Dijkstra.dijkFuel g)
    { dist := (List.replicate g.getNumVertices (⊤ : WithTop ℚ)).set start 0
      prev := List.replicate g.getNumVertices (-1)
      pq := [(0, start)]
      stampArr := List.replicate g.getNumVertices 0
      counter := 1
      lastPop := 0
      used := [] } hinit (by
      dsimp only
      unfold Dijkstra.dijkFuel
      simp only [List.length_singleton, List.length_nil]
      omega)
  refine ⟨stf, ?_, hinvf, hpqf⟩
  unfold Dijkstra.shortestPath
  rw [if_pos hs, wr?_of_lt hlen, ok_bind, hrun, ok_bind]

lemma chain'_lt_pairwise (f : Nat → Nat) :
    ∀ l : List Nat, List.Chain' (fun a b => f b < f a) l →
    l.Pairwise (fun a b => f b < f a)
  | [], _ => List.Pairwise.nil
  | a :: t, h => by
    rw [List.chain'_cons'] at h
    obtain ⟨hhd, ht⟩ := h
    have hpt := chain'_lt_pairwise f t ht
    refine List.pairwise_cons.mpr ⟨?_, hpt⟩
    intro b hb
    cases t with
    | nil => cases hb
    | cons y t' =>
      have hya : f y < f a := hhd y rfl
      rcases List.mem_cons.mp hb with rfl | hb'
      · exact hya
      · have hby := (List.pairwise_cons.mp hpt).1 b hb'
        omega

end DijkstraInv

section C4

/-- C4: on every graph built through the public interface with contiguous
ids, for every start vertex present in the graph and every end vertex
reachable from it along stored edges, `getPath` applied to the result of
`shortestPath` succeeds with a path that begins at the start vertex, ends
at the end vertex, follows stored edges of the graph, and whose summed
stored edge weights equal the distance that `shortestPath` reports for
the end vertex. -/
theorem c4_getPath_weight (g : Graph) (hb : Built g) (hc : Contig g)
    (s e : Nat) (hs : g.hasVertex s = true) (hr : Reach g s e) :
    ∃ res p, Dijkstra.shortestPath g s = .ok res ∧
      Dijkstra.getPath res e = .ok p ∧
      p.head? = some s ∧ p.getLast? = some e ∧
      List.Chain' (EdgeRel g) p ∧
      pathWeight g p = res.1.getD e ⊤ := by
  have hsn : s < g.getNumVertices := (hc s).mp (by
    simpa [Graph.hasVertex] using hs)
  obtain ⟨st, hsp, hinv, hpq⟩ := shortestPath_spec g hb hc s hs
  have hen : e < g.getNumVertices := reach_lt g hb hc hsn hr
  have hfin : st.dist.getD e ⊤ ≠ ⊤ :=
    dist_ne_top_of_reach g hb hc s st hinv hpq hsn e hr
  obtain ⟨l, hrun, hhead, hlast, hmem, hchainS, hchainE, hw⟩ :=
    followPrev_build g hb s st hinv hpq (st.stampArr.getD e 0 + 1) e hen
      (by omega) hfin
  have hnd : l.Nodup :=
    List.Pairwise.imp
      (fun hlt heq => by rw [heq] at hlt; exact lt_irrefl _ hlt)
      (chain'_lt_pairwise (fun x => st.stampArr.getD x 0) l hchainS)
  have hlenl : l.length ≤ g.getNumVertices := length_le_of_nodup_lt hnd hmem
  have hdix : idx? st.dist e = .ok (st.dist.getD e ⊤) :=
    idx?_getD (by rw [hinv.distLen]; exact hen) ⊤
  refine ⟨(st.dist, st.prev), l.reverse, hsp, ?_, ?_, ?_, ?_, hw⟩
  · unfold Dijkstra.getPath
    dsimp only
    rw [dif_pos (show e < st.dist.length by rw [hinv.distLen]; exact hen),
      hdix, ok_bind, if_neg hfin,
      hrun (st.prev.length + 1) (by rw [hinv.prevLen]; omega), ok_bind]
  · rw [List.head?_reverse]
    exact hlast
  · rw [List.getLast?_reverse]
    exact hhead
  · exact List.chain'_reverse.mpr hchainE

/-- A concrete weighted digraph: edges 0→1 (2), 1→2 (3), 2→0 (1),
0→2 (10); the shortest 0→2 path is 0,1,2 with weight 5. -/
def pathGraph : Graph :=
  ((((Graph.mkGraph true).addEdge 0 1 2).addEdge 1 2 3).addEdge 2 0 1).addEdge
    0 2 10

theorem c4_getPath_weight_witness :
    ∃ res p, Dijkstra.shortestPath pathGraph 0 = .ok res ∧
      Dijkstra.getPath res 2 = .ok p ∧
      p.head? = some 0 ∧ p.getLast? = some 2 ∧
      List.Chain' (EdgeRel pathGraph) p ∧
      pathWeight pathGraph p = res.1.getD 2 ⊤ :=
  c4_getPath_weight pathGraph
    (Built.edge 0 2 10 (Built.edge 2 0 1 (Built.edge 1 2 3
      (Built.edge 0 1 2 (Built.base true)))))
    (by
      intro v
      have hv : pathGraph.vertices = [0, 1, 2] := rfl
      rw [hv]
      show v ∈ [0, 1, 2] ↔ v < 3
      simp only [List.mem_cons, List.not_mem_nil, or_false]
      omega)
    0 2 rfl
    (Relation.ReflTransGen.tail Relation.ReflTransGen.refl
      ⟨10, by
        have hn : pathGraph.getNeighbors 0 = [(1, 2), (2, 10)] := rfl
        rw [hn]
        exact List.Mem.tail _ (List.Mem.head _)⟩)

end C4

section C5

/-- Loop invariant of `bfs`: the distance array keeps its size, every
queued vertex is marked visited, visited vertices are in range, marked at
most once, and (except possibly the start) appear in the adjacency
structure. -/
structure BInv (g : Graph) (start : Nat) (d : List Int)
    (qu vis : List Nat) : Prop where
  dLen : d.length = g.getNumVertices
  quSub : ∀ x ∈ qu, x ∈ vis
  visLt : ∀ x ∈ vis, x < g.getNumVertices
  visNd : vis.Nodup
  visSrc : ∀ x ∈ vis, x = start ∨ x ∈ GraphTraversal.allNodes g

lemma binv_vis_le {g : Graph} {start : Nat} {d : List Int}
    {qu vis : List Nat} (hinv : BInv g start d qu vis) :
    vis.length ≤ (GraphTraversal.allNodes g).dedup.length + 1 := by
  have h1 : vis.length = vis.toFinset.card :=
    (List.toFinset_card_of_nodup hinv.visNd).symm
  have h2 : vis.toFinset ⊆
      insert start (GraphTraversal.allNodes g).toFinset := by
    intro a ha
    rw [List.mem_toFinset] at ha
    rcases hinv.visSrc a ha with rfl | h
    · exact Finset.mem_insert_self _ _
    · exact Finset.mem_insert_of_mem (List.mem_toFinset.mpr h)
  calc vis.length = vis.toFinset.card := h1
    _ ≤ (insert start (GraphTraversal.allNodes g).toFinset).card :=
      Finset.card_le_card h2
    _ ≤ (GraphTraversal.allNodes g).toFinset.card + 1 :=
      Finset.card_insert_le _ _
    _ = (GraphTraversal.allNodes g).dedup.length + 1 := by
      rw [List.card_toFinset]

lemma bfsStep_inv (g : Graph) (hb : Built g) (hc : Contig g)
    (start current : Nat) (hcur : current < g.getNumVertices)
    (d : List Int) (vis qu : List Nat) (q : Nat × ℚ)
    (hq : q ∈ g.getNeighbors current) (hinv : BInv g start d qu vis) :
    ∃ d' vis' qu',
      GraphTraversal.bfsStep g current (d, vis, qu) q = .ok (d', vis', qu') ∧
      BInv g start d' qu' vis' ∧
      qu'.length + vis.length = qu.length + vis'.length ∧
      vis.length ≤ vis'.length ∧ (∀ x ∈ vis, x ∈ vis') := by
  by_cases hmemv : q.1 ∈ vis
  · refine ⟨d, vis, qu, ?_, hinv, rfl, le_refl _, fun x hx => hx⟩
    unfold GraphTraversal.bfsStep
    dsimp only
    rw [if_pos hmemv]
    rfl
  · have hxlt : q.1 < g.getNumVertices :=
      (hc q.1).mp ((built_wf g hb current).1 q hq).1
    have hdc : idx? d current = .ok (d.getD current 0) :=
      idx?_getD (by rw [hinv.dLen]; exact hcur) 0
    have hwr : wr? d q.1 (d.getD current 0 + 1) =
        .ok (d.set q.1 (d.getD current 0 + 1)) :=
      wr?_of_lt (by rw [hinv.dLen]; exact hxlt) _
    refine ⟨d.set q.1 (d.getD current 0 + 1), q.1 :: vis, qu ++ [q.1],
      ?_, ?_, ?_, ?_, ?_⟩
    · unfold GraphTraversal.bfsStep
      dsimp only
      rw [if_neg hmemv, hdc, ok_bind, hwr, ok_bind]
      rfl
    · refine {
        dLen := by rw [List.length_set]; exact hinv.dLen
        quSub := ?_
        visLt := ?_
        visNd := List.nodup_cons.mpr ⟨hmemv, hinv.visNd⟩
        visSrc := ?_ }
      · intro x hx
        rcases List.mem_append.mp hx with hold | hnew
        · exact List.mem_cons.mpr (Or.inr (hinv.quSub x hold))
        · rw [List.mem_singleton.mp hnew]
          exact List.mem_cons.mpr (Or.inl rfl)
      · intro x hx
        rcases List.mem_cons.mp hx with rfl | hold
        · exact hxlt
        · exact hinv.visLt x hold
      · intro x hx
        rcases List.mem_cons.mp hx with rfl | hold
        · exact Or.inr (neighbors_mem_allNodes g current hq)
        · exact hinv.visSrc x hold
    · simp only [List.length_append, List.length_cons, List.length_nil]
      omega
    · simp
    · intro x hx
      exact List.mem_cons.mpr (Or.inr hx)

lemma bfsFold_inv (g : Graph) (hb : Built g) (hc : Contig g)
    (start current : Nat) (hcur : current < g.getNumVertices) :
    ∀ (nbrs : List (Nat × ℚ)) (d : List Int) (vis qu : List Nat),
    (∀ q ∈ nbrs, q ∈ g.getNeighbors current) → BInv g start d qu vis →
    ∃ d' vis' qu',
      List.foldlM (GraphTraversal.bfsStep g current) (d, vis, qu) nbrs =
        .ok (d', vis', qu') ∧
      BInv g start d' qu' vis' ∧
      qu'.length + vis.length = qu.length + vis'.length ∧
      vis.length ≤ vis'.length
  | [], d, vis, qu, _, hinv => ⟨d, vis, qu, rfl, hinv, rfl, le_refl _⟩
  | q :: rest, d, vis, qu, hsub, hinv => by
    obtain ⟨d1, vis1, qu1, hstep, hinv1, hcnt1, hmono1, _⟩ :=
      bfsStep_inv g hb hc start current hcur d vis qu q
        (hsub q (List.mem_cons.mpr (Or.inl rfl))) hinv
    obtain ⟨d2, vis2, qu2, hfold, hinv2, hcnt2, hmono2⟩ :=
      bfsFold_inv g hb hc start current hcur rest d1 vis1 qu1
        (fun p hp => hsub p (List.mem_cons.mpr (Or.inr hp))) hinv1
    refine ⟨d2, vis2, qu2, ?_, hinv2, by omega, le_trans hmono1 hmono2⟩
    rw [List.foldlM_cons, hstep, ok_bind]
    exact hfold

lemma bfsLoop_master (g : Graph) (hb : Built g) (hc : Contig g)
    (start : Nat) :
    ∀ (fuel : Nat) (traversal : List Nat) (d : List Int)
      (qu vis : List Nat), BInv g start d qu vis →
    qu.length + ((GraphTraversal.allNodes g).dedup.length + 1 - vis.length)
      < fuel →
    ∃ r, GraphTraversal.bfsLoop g fuel traversal d qu vis = .ok r
  | 0, _, _, _, _, _, hfuel => absurd hfuel (by omega)
  | fuel + 1, traversal, d, [], vis, _, _ => ⟨(traversal, d), rfl⟩
  | fuel + 1, traversal, d, current :: qrest, vis, hinv, hfuel => by
    have hcv : current ∈ vis :=
      hinv.quSub current (List.mem_cons.mpr (Or.inl rfl))
    have hcur : current < g.getNumVertices := hinv.visLt current hcv
    have hinv0 : BInv g start d qrest vis := {
      dLen := hinv.dLen
      quSub := fun x hx => hinv.quSub x (List.mem_cons.mpr (Or.inr hx))
      visLt := hinv.visLt
      visNd := hinv.visNd
      visSrc := hinv.visSrc }
    obtain ⟨d', vis', qu', hfold, hinv', hcnt, hmono⟩ :=
      bfsFold_inv g hb hc start current hcur (g.getNeighbors current)
        d vis qrest (fun q hq => hq) hinv0
    have hle' : vis'.length ≤ (GraphTraversal.allNodes g).dedup.length + 1 :=
      binv_vis_le hinv'
    obtain ⟨r, hr⟩ := bfsLoop_master g hb hc start fuel
      (traversal ++ [current]) d' qu' vis' hinv' (by
        simp only [List.length_cons] at hfuel
        omega)
    refine ⟨r, ?_⟩
    show (do
      let (d', vis', qu') ← List.foldlM (GraphTraversal.bfsStep g current)
        (d, vis, qrest) (g.getNeighbors current)
      GraphTraversal.bfsLoop g fuel (traversal ++ [current]) d' qu' vis') =
        .ok r
    rw [hfold, ok_bind]
    exact hr

lemma bfs_total (g : Graph) (hb : Built g) (hc : Contig g) (s : Nat)
    (hs : g.hasVertex s = true) : ∃ r, GraphTraversal.bfs g s = .ok r := by
  have hsn : s < g.getNumVertices := (hc s).mp (by
    simpa [Graph.hasVertex] using hs)
  have hwr : wr? (List.replicate g.getNumVertices (-1 : Int)) s 0 =
      .ok ((List.replicate g.getNumVertices (-1 : Int)).set s 0) :=
    wr?_of_lt (by rw [List.length_replicate]; exact hsn) _
  have hinv : BInv g s ((List.replicate g.getNumVertices (-1 : Int)).set s 0)
      [s] [s] := {
    dLen := by simp
    quSub := fun x hx => hx
    visLt := fun x hx => by rw [List.mem_singleton.mp hx]; exact hsn
    visNd := List.nodup_singleton s
    visSrc := fun x hx => Or.inl (List.mem_singleton.mp hx) }
  obtain ⟨r, hr⟩ := bfsLoop_master g hb hc s (GraphTraversal.bfsFuel g) []
    ((List.replicate g.getNumVertices (-1 : Int)).set s 0) [s] [s] hinv (by
      unfold GraphTraversal.bfsFuel
      simp only [List.length_singleton]
      omega)
  refine ⟨r, ?_⟩
  unfold GraphTraversal.bfs
  rw [if_pos hs, hwr, ok_bind]
  exact hr

/-- C5: on every built graph whose ids are exactly `{0..n-1}`, every
distance/previous-array access in `bfs` and `shortestPath` is in bounds —
the embedded checked accesses never take the out-of-bound branch and both
functions return `ok` — while on the non-contiguous graph holding the
single edge `0→5` both functions perform an access at an index of at
least the array length and fail with `OutOfBounds`. -/
theorem c5_bounds_safety :
    (∀ (g : Graph), Built g → Contig g → ∀ s, g.hasVertex s = true →
      (∃ r, GraphTraversal.bfs g s = .ok r) ∧
      (∃ r, Dijkstra.shortestPath g s = .ok r)) ∧
    GraphTraversal.bfs ((Graph.mkGraph true).addEdge 0 5 1) 0 =
      .error .outOfBounds ∧
    Dijkstra.shortestPath ((Graph.mkGraph true).addEdge 0 5 1) 0 =
      .error .outOfBounds := by
  refine ⟨?_, rfl, rfl⟩
  intro g hb hc s hs
  refine ⟨bfs_total g hb hc s hs, ?_⟩
  obtain ⟨st, hsp, _, _⟩ := shortestPath_spec g hb hc s hs
  exact ⟨(st.dist, st.prev), hsp⟩

theorem c5_bounds_safety_witness :
    (∃ r, GraphTraversal.bfs pathGraph 0 = .ok r) ∧
    (∃ r, Dijkstra.shortestPath pathGraph 0 = .ok r) :=
  c5_bounds_safety.1 pathGraph
    (Built.edge 0 2 10 (Built.edge 2 0 1 (Built.edge 1 2 3
      (Built.edge 0 1 2 (Built.base true)))))
    (by
      intro v
      have hv : pathGraph.vertices = [0, 1, 2] := rfl
      rw [hv]
      show v ∈ [0, 1, 2] ↔ v < 3
      simp only [List.mem_cons, List.not_mem_nil, or_false]
      omega)
    0 rfl

end C5

/-! ### Louvain (`src/cpp_algorithms/louvain.cpp`) -/

namespace Louvain

/-- `Louvain::Community`: member list, total incident weight, and the
per-target connection weights (association list standing for the
`unordered_map`). -/
structure Community where
  nodes : List Nat
  totalWeight : ℚ
  connections : List (Nat × ℚ)

/-- `connections[k] += w` (`operator[]` default-inserts 0). -/
def connAdd (l : List (Nat × ℚ)) (k : Nat) (w : ℚ) : List (Nat × ℚ) :=
  match l.find? (fun p : Nat × ℚ => p.1 == k) with
  | some _ => l.map (fun p : Nat × ℚ => if p.1 == k then (p.1, p.2 + w) else p)
  | none => l ++ [(k, w)]

/-- `connections[k] -= w; if (connections[k] <= 0) connections.erase(k)`. -/
def connSub (l : List (Nat × ℚ)) (k : Nat) (w : ℚ) : List (Nat × ℚ) :=
  let upd := match l.find? (fun p : Nat × ℚ => p.1 == k) with
    | some _ => l.map (fun p : Nat × ℚ => if p.1 == k then (p.1, p.2 - w) else p)
    | none => l ++ [(k, 0 - w)]
  match upd.find? (fun p : Nat × ℚ => p.1 == k) with
  | some p => if p.2 ≤ 0 then upd.filter (fun q : Nat × ℚ => ¬(q.1 == k)) else upd
  | none => upd

def Community.hasNode (c : Community) (node : Nat) : Bool :=
  c.nodes.contains node

def Community.addNode (c : Community) (node : Nat) (g : Graph) : Community :=
  { nodes := c.nodes ++ [node]
    totalWeight := c.totalWeight + ((g.getNeighbors node).map Prod.snd).sum
    connections :=
      (g.getNeighbors node).foldl (fun l q => connAdd l q.1 q.2)
        c.connections }

def Community.removeNode (c : Community) (node : Nat) (g : Graph) :
    Community :=
  { nodes := c.nodes.filter (fun x => ¬(x == node))
    totalWeight := c.totalWeight - ((g.getNeighbors node).map Prod.snd).sum
    connections :=
      (g.getNeighbors node).foldl (fun l q => connSub l q.1 q.2)
        c.connections }

def calculateModularity (communities : List Community) (g : Graph)
    (totalWeight : ℚ) : Except Err ℚ :=
  if totalWeight ≤ 0 then .error .invalidArgument
  else .ok ((communities.map (fun c =>
    (c.nodes.map (fun node =>
      ((g.getNeighbors node).map (fun q =>
        if c.hasNode q.1 then
          q.2 - c.totalWeight * c.totalWeight / (2 * totalWeight)
        else 0)).sum)).sum)).sum / (2 * totalWeight))

def calculateDeltaModularity (node community : Nat)
    (communities : List Community) (g : Graph) (totalWeight : ℚ) :
    Except Err ℚ :=
  if totalWeight ≤ 0 then .error .invalidArgument
  else if communities.length ≤ community then .error .outOfBounds
  else
    let c := communities.getD community ⟨[], 0, []⟩
    let ki := ((g.getNeighbors node).map Prod.snd).sum
    let kiIn := ((g.getNeighbors node).map
      (fun q => if c.hasNode q.1 then q.2 else 0)).sum
    .ok (kiIn - ki * c.totalWeight / totalWeight)

/-- One neighbour of the best-move scan: skip same-community neighbours,
otherwise compute the delta and keep the strictly better candidate. -/
def bestStep (g : Graph) (comms : List Nat) (structs : List Community)
    (totalWeight : ℚ) (node curComm : Nat) (acc : ℚ × Nat) (q : Nat × ℚ) :
    Except Err (ℚ × Nat) := do
  let nc ← idx? comms q.1
  if nc ≠ curComm then do
    let delta ← calculateDeltaModularity node nc structs g totalWeight
    if acc.1 < delta then .ok (delta, nc) else .ok acc
  else .ok acc

/-- One node of a pass: scan its neighbours for the best move, and move
the node (updating both community structs and the id array) if a strictly
improving neighbouring community was found. -/
def nodeStep (g : Graph) (totalWeight : ℚ)
    (st : List Nat × List Community × Bool) (node : Nat) :
    Except Err (List Nat × List Community × Bool) := do
  let (comms, structs, improved) := st
  let curComm ← idx? comms node
  let best ← (g.getNeighbors node).foldlM
    (bestStep g comms structs totalWeight node curComm) (0, curComm)
  if best.2 ≠ curComm then do
    let cCur ← idx? structs curComm
    let structs1 ← wr? structs curComm (cCur.removeNode node g)
    let cBest ← idx? structs1 best.2
    let structs2 ← wr? structs1 best.2 (cBest.addNode node g)
    let comms' ← wr? comms node best.2
    .ok (comms', structs2, true)
  else .ok (comms, structs, improved)

/-- The do-while loop of `detectCommunities`, one recursion per
iteration (`fuel` is the remaining iteration budget). -/
def louvainLoop (g : Graph) (totalWeight : ℚ) (maxIterations : Nat) :
    Nat → Nat → List Nat → List Community → ℚ →
    Except Err (List Nat × ℚ × Nat × Bool)
  | 0, _, _, _, _ => .error .fuelExhausted
  | fuel + 1, iteration, comms, structs, cm => do
    let passed ← (List.range g.getNumVertices).foldlM
      (nodeStep g totalWeight) (comms, structs, false)
    let (comms', structs', improved) := passed
    let cm' ← if improved then calculateModularity structs' g totalWeight
      else .ok cm
    if improved ∧ iteration + 1 < maxIterations then
      louvainLoop g totalWeight maxIterations fuel (iteration + 1)
        comms' structs' cm'
    else .ok (comms', cm', iteration + 1, !improved)

/-- `Louvain::Result` (`numCommunities = max id + 1`, 0 when empty). -/
structure Result where
  communities : List Nat
  numCommunities : Nat
  modularity : ℚ
  iterations : Nat
  converged : Bool
  deriving DecidableEq

def mkResult (comms : List Nat) (modularity : ℚ) (iters : Nat)
    (conv : Bool) : Result :=
  { communities := comms
    numCommunities := if comms.isEmpty then 0 else comms.foldr max 0 + 1
    modularity := modularity
    iterations := iters
    converged := conv }

/-- `Louvain::detectCommunities`: reject `maxIterations = 0` and the
empty graph, start from singleton communities, reject a non-positive
total weight, and run node-move passes until no improvement or the
iteration cap. -/
def detectCommunities (g : Graph) (maxIterations : Nat) :
    Except Err Result :=
  if maxIterations = 0 then .error .invalidArgument
  else if g.getNumVertices = 0 then .error .invalidArgument
  else
    let structs0 := (List.range g.getNumVertices).map
      (fun i => Community.addNode ⟨[], 0, []⟩ i g)
    let totalWeight := (structs0.map Community.totalWeight).sum / 2
    if totalWeight ≤ 0 then .error .invalidArgument
    else do
      let m0 ← calculateModularity structs0 g totalWeight
      let r ← louvainLoop g totalWeight maxIterations maxIterations 0
        (List.range g.getNumVertices) structs0 m0
      .ok (mkResult r.1 r.2.1 r.2.2.1 r.2.2.2)

end Louvain

section C9

/-- An edge of the graph in either direction. -/
def WeakEdge (g : Graph) (a b : Nat) : Prop :=
  EdgeRel g a b ∨ EdgeRel g b a

/-- `a` and `b` are in the same weakly-connected component. -/
def SameComp (g : Graph) : Nat → Nat → Prop :=
  Relation.ReflTransGen (WeakEdge g)

lemma sameComp_symm {g : Graph} {a b : Nat} (h : SameComp g a b) :
    SameComp g b a := by
  induction h with
  | refl => exact Relation.ReflTransGen.refl
  | tail hab hbc ih =>
    exact Relation.ReflTransGen.trans
      (Relation.ReflTransGen.single (hbc.elim Or.inr Or.inl)) ih

lemma sameComp_trans {g : Graph} {a b c : Nat} (h1 : SameComp g a b)
    (h2 : SameComp g b c) : SameComp g a c :=
  Relation.ReflTransGen.trans h1 h2

/-- Invariant of the community-id array maintained by the Louvain pass:
ids are in range and every vertex shares a weak component with the vertex
whose index names its community. -/
def LInv (g : Graph) (comms : List Nat) : Prop :=
  comms.length = g.getNumVertices ∧
  ∀ v, v < g.getNumVertices →
    comms.getD v 0 < g.getNumVertices ∧ SameComp g v (comms.getD v 0)

lemma bind_ok_inv {α β : Type} {x : Except Err α} {f : α → Except Err β}
    {r : β} (h : (x >>= f) = .ok r) : ∃ a, x = .ok a ∧ f a = .ok r := by
  cases x with
  | ok a => exact ⟨a, rfl, h⟩
  | error e => exact absurd h (by simp [Bind.bind, Except.bind])

lemma idx?_ok_inv {α : Type} (d : α) {l : List α} {i : Nat} {x : α}
    (h : idx? l i = .ok x) : i < l.length ∧ x = l.getD i d := by
  rw [idx?_eq_ok] at h
  have hlt : i < l.length := by
    by_contra hge
    rw [List.get?_eq_none.mpr (not_lt.mp hge)] at h
    cases h
  exact ⟨hlt, (getD_of_get? h).symm⟩

lemma wr?_ok_inv {α : Type} {l l' : List α} {i : Nat} {x : α}
    (h : wr? l i x = .ok l') : i < l.length ∧ l' = l.set i x := by
  by_cases hlt : i < l.length
  · rw [wr?_of_lt hlt] at h
    injection h with h
    exact ⟨hlt, h.symm⟩
  · unfold wr? at h
    rw [if_neg hlt] at h
    cases h

lemma bestFold_cases (g : Graph) (comms : List Nat)
    (structs : List Louvain.Community) (tw : ℚ) (node curComm : Nat) :
    ∀ (nbrs : List (Nat × ℚ)) (acc res : ℚ × Nat),
    List.foldlM (Louvain.bestStep g comms structs tw node curComm) acc
      nbrs = .ok res →
    res.2 = acc.2 ∨ ∃ q ∈ nbrs, q.1 < comms.length ∧
      res.2 = comms.getD q.1 0
  | [], acc, res, h => by
    injection h with h
    exact Or.inl (congrArg Prod.snd h.symm)
  | q :: rest, acc, res, h => by
    rw [List.foldlM_cons] at h
    obtain ⟨acc1, hstep, hrest⟩ := bind_ok_inv h
    have hacc1 : acc1.2 = acc.2 ∨
        (q.1 < comms.length ∧ acc1.2 = comms.getD q.1 0) := by
      unfold Louvain.bestStep at hstep
      obtain ⟨nc, hidx, hrest2⟩ := bind_ok_inv hstep
      obtain ⟨hqlt, hnc⟩ := idx?_ok_inv 0 hidx
      split at hrest2
      · obtain ⟨delta, hdel, hif⟩ := bind_ok_inv hrest2
        split at hif
        · injection hif with hif
          refine Or.inr ⟨hqlt, ?_⟩
          rw [← hif]
          exact hnc
        · injection hif with hif
          exact Or.inl (congrArg Prod.snd hif.symm)
      · injection hrest2 with h2
        exact Or.inl (congrArg Prod.snd h2.symm)
    rcases bestFold_cases g comms structs tw node curComm rest acc1 res
      hrest with h1 | ⟨p, hp, hplt, hpeq⟩
    · rcases hacc1 with h2 | ⟨hlt, heq⟩
      · exact Or.inl (h1.trans h2)
      · exact Or.inr ⟨q, List.mem_cons.mpr (Or.inl rfl), hlt, h1.trans heq⟩
    · exact Or.inr ⟨p, List.mem_cons.mpr (Or.inr hp), hplt, hpeq⟩

lemma nodeStep_inv (g : Graph) (tw : ℚ)
    (comms : List Nat) (structs : List Louvain.Community) (imp : Bool)
    (node : Nat) (hnode : node < g.getNumVertices)
    (hinv : LInv g comms) :
    ∀ st', Louvain.nodeStep g tw (comms, structs, imp) node = .ok st' →
    LInv g st'.1 := by
  intro st' h
  unfold Louvain.nodeStep at h
  dsimp only at h
  obtain ⟨curComm, hidx, h⟩ := bind_ok_inv h
  obtain ⟨best, hfold, h⟩ := bind_ok_inv h
  split at h
  · rename_i hne
    obtain ⟨cCur, _, h⟩ := bind_ok_inv h
    obtain ⟨structs1, _, h⟩ := bind_ok_inv h
    obtain ⟨cBest, _, h⟩ := bind_ok_inv h
    obtain ⟨structs2, _, h⟩ := bind_ok_inv h
    obtain ⟨comms', hwr, h⟩ := bind_ok_inv h
    obtain ⟨hnlt2, hset⟩ := wr?_ok_inv hwr
    injection h with h
    subst h
    rcases bestFold_cases g comms structs tw node curComm _ _ _ hfold with
      hsame | ⟨q, hq, hqlt, hqeq⟩
    · exact absurd hsame hne
    · subst hset
      constructor
      · rw [List.length_set]
        exact hinv.1
      · intro v hv
        by_cases hveq : v = node
        · subst hveq
          rw [getD_set_self _ _ _ _ hnlt2]
          have hq1n : q.1 < g.getNumVertices := by
            rw [← hinv.1]
            exact hqlt
          obtain ⟨hcl, hcs⟩ := hinv.2 q.1 hq1n
          rw [hqeq]
          refine ⟨hcl, ?_⟩
          exact sameComp_trans
            (Relation.ReflTransGen.single (Or.inl ⟨q.2, by
              rw [← Prod.mk.eta (p := q)] at hq
              exact hq⟩)) hcs
        · rw [getD_set_ne _ _ _ _ _ (fun e => hveq e.symm)]
          exact hinv.2 v hv
  · injection h with h
    subst h
    exact hinv

lemma passFold_inv (g : Graph) (tw : ℚ) :
    ∀ (nodes : List Nat), (∀ x ∈ nodes, x < g.getNumVertices) →
    ∀ (st st' : List Nat × List Louvain.Community × Bool),
    LInv g st.1 →
    List.foldlM (Louvain.nodeStep g tw) st nodes = .ok st' →
    LInv g st'.1
  | [], _, st, st', hinv, h => by
    injection h with h
    rw [← h]
    exact hinv
  | x :: rest, hall, st, st', hinv, h => by
    rw [List.foldlM_cons] at h
    obtain ⟨st1, hstep, hrest⟩ := bind_ok_inv h
    have hinv1 : LInv g st1.1 :=
      nodeStep_inv g tw st.1 st.2.1 st.2.2 x
        (hall x (List.mem_cons.mpr (Or.inl rfl))) hinv st1 hstep
    exact passFold_inv g tw rest
      (fun y hy => hall y (List.mem_cons.mpr (Or.inr hy))) st1 st' hinv1
      hrest

lemma louvainLoop_inv (g : Graph) (tw : ℚ) (maxIter : Nat) :
    ∀ (fuel iteration : Nat) (comms : List Nat)
      (structs : List Louvain.Community) (cm : ℚ)
      (r : List Nat × ℚ × Nat × Bool),
    LInv g comms →
    Louvain.louvainLoop g tw maxIter fuel iteration comms structs cm =
      .ok r →
    LInv g r.1
  | 0, _, _, _, _, _, _, h => by cases h
  | fuel + 1, iteration, comms, structs, cm, r, hinv, h => by
    unfold Louvain.louvainLoop at h
    obtain ⟨passed, hpass, h⟩ := bind_ok_inv h
    obtain ⟨comms1, structs1, improved⟩ := passed
    have hinv' : LInv g comms1 :=
      passFold_inv g tw (List.range g.getNumVertices)
        (fun x hx => List.mem_range.mp hx) (comms, structs, false)
        (comms1, structs1, improved) hinv hpass
    dsimp only at h
    split at h
    · obtain ⟨cm', hcm, h⟩ := bind_ok_inv h
      split at h
      · exact louvainLoop_inv g tw maxIter fuel (iteration + 1) comms1
          structs1 cm' r hinv' h
      · injection h with h
        rw [← h]
        exact hinv'
    · obtain ⟨cm', hcm, h⟩ := bind_ok_inv h
      split at h
      · exact louvainLoop_inv g tw maxIter fuel (iteration + 1) comms1
          structs1 cm' r hinv' h
      · injection h with h
        rw [← h]
        exact hinv'

lemma card_image_le_of_factor {f h : Nat → Nat} {s : Finset Nat}
    (hf : ∀ u ∈ s, ∀ v ∈ s, h u = h v → f u = f v) :
    (s.image f).card ≤ (s.image h).card := by
  classical
  apply Finset.card_le_card_of_surjOn
    (fun c => f (if hc : ∃ u, u ∈ s ∧ h u = c then hc.choose else 0))
  intro y hy
  rw [Finset.mem_coe, Finset.mem_image] at hy
  obtain ⟨u, hu, rfl⟩ := hy
  refine ⟨h u, Finset.mem_coe.mpr (Finset.mem_image_of_mem h hu), ?_⟩
  have hex : ∃ w, w ∈ s ∧ h w = h u := ⟨u, hu, rfl⟩
  dsimp only
  rw [dif_pos hex]
  exact hf _ hex.choose_spec.1 u hu hex.choose_spec.2

/-- C9: whenever `detectCommunities` accepts a graph and returns a
result, vertices assigned the same community id lie in the same
weakly-connected component (a node only ever moves to a community of one
of its neighbours), and hence the number of distinct community ids in the
returned array is at least the number of weakly-connected components —
here measured through any labelling `rep` that is constant exactly on
components. -/
theorem c9_communities_components (g : Graph) (maxIter : Nat)
    (rep : Nat → Nat)
    (hrep : ∀ u v, u < g.getNumVertices → v < g.getNumVertices →
      (SameComp g u v ↔ rep u = rep v))
    (r : Louvain.Result)
    (hr : Louvain.detectCommunities g maxIter = .ok r) :
    (∀ u v, u < g.getNumVertices → v < g.getNumVertices →
      r.communities.getD u 0 = r.communities.getD v 0 → SameComp g u v) ∧
    ((Finset.range g.getNumVertices).image rep).card ≤
      ((Finset.range g.getNumVertices).image
        (fun v => r.communities.getD v 0)).card := by
  unfold Louvain.detectCommunities at hr
  split at hr
  · cases hr
  split at hr
  · cases hr
  dsimp only at hr
  split at hr
  · cases hr
  obtain ⟨m0, hm0, hr⟩ := bind_ok_inv hr
  obtain ⟨res, hloop, hr⟩ := bind_ok_inv hr
  injection hr with hr
  have hgr : ∀ v, v < g.getNumVertices →
      (List.range g.getNumVertices).getD v 0 = v := by
    intro v hv
    exact getD_of_get? (List.get?_range hv)
  have hinv0 : LInv g (List.range g.getNumVertices) := by
    refine ⟨List.length_range _, fun v hv => ?_⟩
    rw [hgr v hv]
    exact ⟨hv, Relation.ReflTransGen.refl⟩
  have hinvf : LInv g res.1 :=
    louvainLoop_inv g _ maxIter maxIter 0 _ _ m0 res hinv0 hloop
  have hcomm : r.communities = res.1 := by
    rw [← hr]
    rfl
  have parta : ∀ u v, u < g.getNumVertices → v < g.getNumVertices →
      res.1.getD u 0 = res.1.getD v 0 → SameComp g u v := by
    intro u v hu hv heq
    have h2 : SameComp g (res.1.getD u 0) v := by
      rw [heq]
      exact sameComp_symm (hinvf.2 v hv).2
    exact sameComp_trans (hinvf.2 u hu).2 h2
  simp only [hcomm]
  refine ⟨parta, ?_⟩
  apply card_image_le_of_factor
  intro u hu v hv heq
  rw [Finset.mem_range] at hu hv
  exact (hrep u v hu hv).mp (parta u v hu hv heq)

/-- Witness graph: an undirected edge 0–1 plus the isolated vertex 2
(two weak components). -/
def louvainGraph : Graph :=
  ((Graph.mkGraph false).addEdge 0 1 1).addVertex 2

/-- A labelling that is constant exactly on the weak components of
`louvainGraph`. -/
def louvainRep : Nat → Nat := fun v => if v ≤ 1 then 0 else v

lemma louvainGraph_edge {x y : Nat} (h : EdgeRel louvainGraph x y) :
    (x = 0 ∧ y = 1) ∨ (x = 1 ∧ y = 0) := by
  obtain ⟨w, hm⟩ := h
  by_cases hx0 : x = 0
  · subst hx0
    have hn : louvainGraph.getNeighbors 0 = [(1, 1)] := rfl
    rw [hn] at hm
    exact Or.inl ⟨rfl, congrArg Prod.fst (List.mem_singleton.mp hm)⟩
  · by_cases hx1 : x = 1
    · subst hx1
      have hn : louvainGraph.getNeighbors 1 = [(0, 1)] := rfl
      rw [hn] at hm
      exact Or.inr ⟨rfl, congrArg Prod.fst (List.mem_singleton.mp hm)⟩
    · exfalso
      have hne : louvainGraph.getNeighbors x ≠ [] := by
        intro he
        rw [he] at hm
        cases hm
      have hx : x ∈ GraphTraversal.allNodes louvainGraph :=
        key_mem_allNodes louvainGraph x hne
      have hall : GraphTraversal.allNodes louvainGraph = [0, 1, 1, 0] := rfl
      rw [hall] at hx
      rcases List.mem_cons.mp hx with h | h
      · exact hx0 h
      rcases List.mem_cons.mp h with h | h
      · exact hx1 h
      rcases List.mem_cons.mp h with h | h
      · exact hx1 h
      rcases List.mem_cons.mp h with h | h
      · exact hx0 h
      · cases h

lemma louvainGraph_comp {a b : Nat} (h : SameComp louvainGraph a b) :
    (a ≤ 1 ∧ b ≤ 1) ∨ a = b := by
  induction h with
  | refl => exact Or.inr rfl
  | @tail x y hax hxy ih =>
    have hxy' : (x = 0 ∧ y = 1) ∨ (x = 1 ∧ y = 0) := by
      rcases hxy with h | h
      · exact louvainGraph_edge h
      · rcases louvainGraph_edge h with ⟨h1, h2⟩ | ⟨h1, h2⟩
        · exact Or.inr ⟨h2, h1⟩
        · exact Or.inl ⟨h2, h1⟩
    rcases hxy' with ⟨hx, hy⟩ | ⟨hx, hy⟩
    · subst hx
      subst hy
      rcases ih with ⟨ha, _⟩ | rfl
      · exact Or.inl ⟨ha, by omega⟩
      · exact Or.inl ⟨by omega, by omega⟩
    · subst hx
      subst hy
      rcases ih with ⟨ha, _⟩ | rfl
      · exact Or.inl ⟨ha, by omega⟩
      · exact Or.inl ⟨by omega, by omega⟩

lemma louvainRep_spec : ∀ u v, u < louvainGraph.getNumVertices →
    v < louvainGraph.getNumVertices →
    (SameComp louvainGraph u v ↔ louvainRep u = louvainRep v) := by
  intro u v hu hv
  have hu3 : u < 3 := hu
  have hv3 : v < 3 := hv
  constructor
  · intro h
    rcases louvainGraph_comp h with ⟨h1, h2⟩ | rfl
    · unfold louvainRep
      rw [if_pos h1, if_pos h2]
    · rfl
  · intro heq
    unfold louvainRep at heq
    have hse : SameComp louvainGraph 0 1 :=
      Relation.ReflTransGen.single (Or.inl ⟨1, by
        have hn : louvainGraph.getNeighbors 0 = [(1, 1)] := rfl
        rw [hn]
        exact List.Mem.head _⟩)
    interval_cases u <;> interval_cases v <;> first
      | exact Relation.ReflTransGen.refl
      | exact hse
      | exact sameComp_symm hse
      | (exfalso; simp at heq)

/-- The singleton community structs of the witness graph, with the
incident weights evaluated. -/
def louvainS0 : List Louvain.Community :=
  [⟨[0], 1, [(1, 1)]⟩, ⟨[1], 1, [(0, 1)]⟩, ⟨[2], 0, []⟩]

lemma louvainDelta01 :
    Louvain.calculateDeltaModularity 0 1 louvainS0 louvainGraph 1 =
    .ok 0 := by
  unfold Louvain.calculateDeltaModularity
  rw [if_neg (by norm_num : ¬((1 : ℚ) ≤ 0)),
    if_neg (by decide : ¬(louvainS0.length ≤ 1))]
  dsimp only
  congr 1
  rw [show louvainGraph.getNeighbors 0 = [(1, 1)] from rfl]
  norm_num [louvainS0, Louvain.Community.hasNode]

lemma louvainDelta10 :
    Louvain.calculateDeltaModularity 1 0 louvainS0 louvainGraph 1 =
    .ok 0 := by
  unfold Louvain.calculateDeltaModularity
  rw [if_neg (by norm_num : ¬((1 : ℚ) ≤ 0)),
    if_neg (by decide : ¬(louvainS0.length ≤ 0))]
  dsimp only
  congr 1
  rw [show louvainGraph.getNeighbors 1 = [(0, 1)] from rfl]
  norm_num [louvainS0, Louvain.Community.hasNode]

lemma louvainMod0 :
    Louvain.calculateModularity louvainS0 louvainGraph 1 = .ok 0 := by
  unfold Louvain.calculateModularity
  rw [if_neg (by norm_num : ¬((1 : ℚ) ≤ 0))]
  congr 1
  norm_num [louvainS0, Louvain.Community.hasNode,
    show louvainGraph.getNeighbors 0 = [(1, 1)] from rfl,
    show louvainGraph.getNeighbors 1 = [(0, 1)] from rfl,
    show louvainGraph.getNeighbors 2 = [] from rfl]

lemma louvainBest0 :
    Louvain.bestStep louvainGraph [0, 1, 2] louvainS0 1 0 0 (0, 0)
    (1, 1) = .ok (0, 0) := by
  unfold Louvain.bestStep
  rw [show idx? [0, 1, 2] 1 = Except.ok 1 from rfl, ok_bind,
    if_pos (by decide : (1 : Nat) ≠ 0), louvainDelta01, ok_bind,
    if_neg (by norm_num : ¬(((0 : ℚ), (0 : Nat)).1 < 0))]

lemma louvainBest1 :
    Louvain.bestStep louvainGraph [0, 1, 2] louvainS0 1 1 1 (0, 1)
    (0, 1) = .ok (0, 1) := by
  unfold Louvain.bestStep
  rw [show idx? [0, 1, 2] 0 = Except.ok 0 from rfl, ok_bind,
    if_pos (by decide : (0 : Nat) ≠ 1), louvainDelta10, ok_bind,
    if_neg (by norm_num : ¬(((0 : ℚ), (1 : Nat)).1 < 0))]

lemma louvainNode0 :
    Louvain.nodeStep louvainGraph 1 ([0, 1, 2], louvainS0, false) 0 =
    .ok ([0, 1, 2], louvainS0, false) := by
  unfold Louvain.nodeStep
  dsimp only
  rw [show idx? [0, 1, 2] 0 = Except.ok 0 from rfl, ok_bind,
    show louvainGraph.getNeighbors 0 = [(1, 1)] from rfl,
    List.foldlM_cons, louvainBest0, ok_bind, List.foldlM_nil, pure_bind,
    if_neg (by decide : ¬(((0 : ℚ), (0 : Nat)).2 ≠ 0))]

lemma louvainNode1 :
    Louvain.nodeStep louvainGraph 1 ([0, 1, 2], louvainS0, false) 1 =
    .ok ([0, 1, 2], louvainS0, false) := by
  unfold Louvain.nodeStep
  dsimp only
  rw [show idx? [0, 1, 2] 1 = Except.ok 1 from rfl, ok_bind,
    show louvainGraph.getNeighbors 1 = [(0, 1)] from rfl,
    List.foldlM_cons, louvainBest1, ok_bind, List.foldlM_nil, pure_bind,
    if_neg (by decide : ¬(((0 : ℚ), (1 : Nat)).2 ≠ 1))]

lemma louvainNode2 :
    Louvain.nodeStep louvainGraph 1 ([0, 1, 2], louvainS0, false) 2 =
    .ok ([0, 1, 2], louvainS0, false) := by
  unfold Louvain.nodeStep
  dsimp only
  rw [show idx? [0, 1, 2] 2 = Except.ok 2 from rfl, ok_bind,
    show louvainGraph.getNeighbors 2 = [] from rfl,
    List.foldlM_nil, pure_bind,
    if_neg (by decide : ¬(((0 : ℚ), (2 : Nat)).2 ≠ 2))]

lemma louvainLoop_succ (g : Graph) (tw : ℚ) (mi f it : Nat)
    (comms : List Nat) (structs : List Louvain.Community) (cm : ℚ) :
    Louvain.louvainLoop g tw mi (f + 1) it comms structs cm = (do
      let passed ← (List.range g.getNumVertices).foldlM
        (Louvain.nodeStep g tw) (comms, structs, false)
      let (comms', structs', improved) := passed
      let cm' ← if improved then Louvain.calculateModularity structs' g tw
        else .ok cm
      if improved ∧ it + 1 < mi then
        Louvain.louvainLoop g tw mi f (it + 1) comms' structs' cm'
      else .ok (comms', cm', it + 1, !improved)) := rfl

lemma louvain_run : Louvain.detectCommunities louvainGraph 100 =
    .ok ⟨[0, 1, 2], 3, 0, 1, true⟩ := by
  have hS : (List.range louvainGraph.getNumVertices).map
      (fun i => Louvain.Community.addNode ⟨[], 0, []⟩ i louvainGraph) =
      louvainS0 := by
    show [(⟨[0], 0 + (1 + 0), [(1, 1)]⟩ : Louvain.Community),
      ⟨[1], 0 + (1 + 0), [(0, 1)]⟩, ⟨[2], 0 + 0, []⟩] = _
    norm_num [louvainS0]
  unfold Louvain.detectCommunities
  rw [if_neg (by decide : ¬(100 = 0)),
    if_neg (by decide : ¬(louvainGraph.getNumVertices = 0))]
  dsimp only
  rw [hS]
  have htw : (louvainS0.map Louvain.Community.totalWeight).sum / 2 = 1 := by
    norm_num [louvainS0]
  rw [htw, if_neg (by norm_num : ¬((1 : ℚ) ≤ 0)), louvainMod0, ok_bind,
    show (100 : Nat) = 99 + 1 from rfl, louvainLoop_succ,
    show List.range louvainGraph.getNumVertices = [0, 1, 2] from rfl,
    List.foldlM_cons, louvainNode0, ok_bind, List.foldlM_cons,
    louvainNode1, ok_bind, List.foldlM_cons, louvainNode2, ok_bind,
    List.foldlM_nil, pure_bind]
  dsimp only
  rw [if_neg (by decide : ¬(false = true)), ok_bind,
    if_neg (by decide : ¬(false = true ∧ 0 + 1 < 99 + 1)), ok_bind]
  rfl

theorem c9_communities_components_witness :
    (∀ u v, u < louvainGraph.getNumVertices →
      v < louvainGraph.getNumVertices →
      (⟨[0, 1, 2], 3, 0, 1, true⟩ : Louvain.Result).communities.getD u 0 =
        (⟨[0, 1, 2], 3, 0, 1, true⟩ :
          Louvain.Result).communities.getD v 0 →
      SameComp louvainGraph u v) ∧
    ((Finset.range louvainGraph.getNumVertices).image louvainRep).card ≤
      ((Finset.range louvainGraph.getNumVertices).image
        (fun v => (⟨[0, 1, 2], 3, 0, 1, true⟩ :
          Louvain.Result).communities.getD v 0)).card :=
  c9_communities_components louvainGraph 100 louvainRep louvainRep_spec
    ⟨[0, 1, 2], 3, 0, 1, true⟩ louvain_run

end C9

end GitConnectX
